import Mathlib

/-!
Verification of an information-retrieval engine (positional TF-IDF index with
boolean, phrase and ranked search) against its specification.

The Python sources are shallowly embedded: dictionaries become association
lists (Python dicts preserve insertion order), Python sets of document ids
become `Finset String`, floats become `ℚ` (with `math.sqrt`/`math.log2`
characterised by hypotheses where a claim needs them), and functions that can
raise become `Except`-valued functions.
-/

namespace RecInf

/-- One element of a term's `weights` list in the persisted index:
`{doc, tfidf, positions}` (see `indexer.to_serializable`). -/
structure WeightEntry where
  doc : String
  tfidf : ℚ
  positions : List Int
deriving DecidableEq

/-- A term's entry in the index: `{idf, weights}`. -/
structure TermEntry where
  idf : ℚ
  weights : List WeightEntry
deriving DecidableEq

/-- The `terms` section of the index, a Python dict modelled as an
insertion-ordered association list. -/
abbrev TermsMap := List (String × TermEntry)

/-- Python dict lookup (`m[k]` / `m.get(k)`) on an association list. -/
def dictGet : List (String × α) → String → Option α
  | [], _ => none
  | (k, v) :: t, key => if k = key then some v else dictGet t key

/-- `DocumentFilter.get_documents_for_terms` (document_filter.py:20-35):
the set of documents containing at least one of the given terms. -/
def getDocumentsForTerms (indexTerms : TermsMap) (terms : List String) : Finset String :=
  terms.foldl (fun docs term =>
    match dictGet indexTerms term with
    | some entry => entry.weights.foldl (fun d w => insert w.doc d) docs
    | none => docs) ∅

/-- The loop `for term in terms[1:]` of `DocumentFilter.filter_and`
(document_filter.py:58-64), with its early `return set()` when a term is
absent from the index. -/
def filterAndLoop (indexTerms : TermsMap) : List String → Finset String → Finset String
  | [], acc => acc
  | t :: ts, acc =>
    match dictGet indexTerms t with
    | some _ => filterAndLoop indexTerms ts (acc ∩ getDocumentsForTerms indexTerms [t])
    | none => ∅

/-- `DocumentFilter.filter_and` (document_filter.py:37-66). -/
def filterAnd (indexTerms : TermsMap) (terms : List String) : Finset String :=
  match terms with
  | [] => ∅
  | first :: rest =>
    match dictGet indexTerms first with
    | none => ∅
    | some _ => filterAndLoop indexTerms rest (getDocumentsForTerms indexTerms [first])

/-- `DocumentFilter.filter_or` (document_filter.py:68-78). -/
def filterOr (indexTerms : TermsMap) (terms : List String) : Finset String :=
  getDocumentsForTerms indexTerms terms

/-- `DocumentFilter.filter_documents` (document_filter.py:80-94): any operator
other than `"AND"` falls through to OR. -/
def filterDocuments (indexTerms : TermsMap) (terms : List String) (op : String) :
    Finset String :=
  if op = "AND" then filterAnd indexTerms terms else filterOr indexTerms terms

lemma mem_weightsFold (ws : List WeightEntry) (acc : Finset String) (x : String) :
    x ∈ ws.foldl (fun d w => insert w.doc d) acc ↔ x ∈ acc ∨ ∃ w ∈ ws, w.doc = x := by
  induction ws generalizing acc with
  | nil => simp
  | cons w ws ih =>
    simp only [List.foldl_cons, ih, Finset.mem_insert, List.mem_cons]
    constructor
    · rintro (⟨h | h⟩ | ⟨w', hw', hx⟩)
      · exact Or.inr ⟨w, Or.inl rfl, h.symm⟩
      · exact Or.inl h
      · exact Or.inr ⟨w', Or.inr hw', hx⟩
    · rintro (h | ⟨w', (rfl | hw'), hx⟩)
      · exact Or.inl (Or.inr h)
      · exact Or.inl (Or.inl hx.symm)
      · exact Or.inr ⟨w', hw', hx⟩

lemma mem_getDocumentsForTerms_aux (indexTerms : TermsMap) (ts : List String)
    (acc : Finset String) (x : String) :
    x ∈ ts.foldl (fun docs term =>
      match dictGet indexTerms term with
      | some entry => entry.weights.foldl (fun d w => insert w.doc d) docs
      | none => docs) acc ↔
    x ∈ acc ∨ ∃ t ∈ ts, ∃ e, dictGet indexTerms t = some e ∧ ∃ w ∈ e.weights, w.doc = x := by
  induction ts generalizing acc with
  | nil => simp
  | cons t ts ih =>
    simp only [List.foldl_cons, List.mem_cons]
    rcases h : dictGet indexTerms t with _ | e
    · rw [ih]
      constructor
      · rintro (hx | ⟨t', ht', he⟩)
        · exact Or.inl hx
        · exact Or.inr ⟨t', Or.inr ht', he⟩
      · rintro (hx | ⟨t', (rfl | ht'), e', he', hw⟩)
        · exact Or.inl hx
        · rw [h] at he'; cases he'
        · exact Or.inr ⟨t', ht', e', he', hw⟩
    · rw [ih]
      simp only [mem_weightsFold]
      constructor
      · rintro (⟨hx | hw⟩ | ⟨t', ht', he⟩)
        · exact Or.inl hx
        · exact Or.inr ⟨t, Or.inl rfl, e, h, hw⟩
        · exact Or.inr ⟨t', Or.inr ht', he⟩
      · rintro (hx | ⟨t', (rfl | ht'), e', he', hw⟩)
        · exact Or.inl (Or.inl hx)
        · rw [h] at he'; cases he'; exact Or.inl (Or.inr hw)
        · exact Or.inr ⟨t', ht', e', he', hw⟩

lemma mem_getDocumentsForTerms (indexTerms : TermsMap) (ts : List String) (x : String) :
    x ∈ getDocumentsForTerms indexTerms ts ↔
    ∃ t ∈ ts, ∃ e, dictGet indexTerms t = some e ∧ ∃ w ∈ e.weights, w.doc = x := by
  rw [getDocumentsForTerms, mem_getDocumentsForTerms_aux]
  simp

lemma getDocumentsForTerms_single_none (indexTerms : TermsMap) (t : String)
    (h : dictGet indexTerms t = none) : getDocumentsForTerms indexTerms [t] = ∅ := by
  ext x
  simp only [mem_getDocumentsForTerms, List.mem_singleton, Finset.not_mem_empty, iff_false]
  rintro ⟨t', rfl, e, he, -⟩
  rw [h] at he; cases he

/-- C8: `filter_and([a,b])` is the intersection of `filter_or([a])` and
`filter_or([b])`; an absent term makes the AND result empty; and AND of zero
terms is the empty set. -/
theorem filterAnd_pair_eq_inter (indexTerms : TermsMap) (a b : String) :
    filterAnd indexTerms [a, b] = filterOr indexTerms [a] ∩ filterOr indexTerms [b] ∧
    (dictGet indexTerms b = none → filterAnd indexTerms [a, b] = ∅) ∧
    filterAnd indexTerms [] = ∅ := by
  have key : filterAnd indexTerms [a, b] = filterOr indexTerms [a] ∩ filterOr indexTerms [b] := by
    rw [filterAnd, filterOr, filterOr]
    rcases ha : dictGet indexTerms a with _ | ea
    · rw [getDocumentsForTerms_single_none indexTerms a ha, Finset.empty_inter]
    · rw [filterAndLoop]
      rcases hb : dictGet indexTerms b with _ | eb
      · rw [getDocumentsForTerms_single_none indexTerms b hb, Finset.inter_empty]
      · rw [filterAndLoop]
  refine ⟨key, ?_, rfl⟩
  intro hb
  rw [key]
  simp only [filterOr]
  rw [getDocumentsForTerms_single_none indexTerms b hb, Finset.inter_empty]

/-- Witness for C8 at a concrete index: the absent-term clause gives the
empty AND result. -/
theorem filterAnd_pair_eq_inter_witness :
    filterAnd [("cat", ⟨1, [⟨"d1", 1, [0]⟩]⟩)] ["cat", "dog"] = ∅ :=
  (filterAnd_pair_eq_inter [("cat", ⟨1, [⟨"d1", 1, [0]⟩]⟩)] "cat" "dog").2.1 rfl

/-- A ranked result `{doc, score}` (document_ranker.py:86-89). -/
structure ScoredDoc where
  doc : String
  score : ℚ
deriving DecidableEq

/-- `doc_numerators[doc_id] += contribution`, initialising the key with `0.0`
when absent (document_ranker.py:66-69), on an insertion-ordered dict. -/
def updateAdd : List (String × ℚ) → String → ℚ → List (String × ℚ)
  | [], k, v => [(k, v)]
  | (k', v') :: t, k, v =>
    if k' = k then (k', v' + v) :: t else (k', v') :: updateAdd t k v

/-- The loop over one term's weight entries (document_ranker.py:54-69),
skipping documents outside the candidate set when one is given. -/
def accumTermWeights (candidateDocs : Option (Finset String)) (idf : ℚ)
    (ws : List WeightEntry) (acc : List (String × ℚ)) : List (String × ℚ) :=
  ws.foldl (fun a w =>
    match candidateDocs with
    | some c => if w.doc ∉ c then a else updateAdd a w.doc (idf * w.tfidf)
    | none => updateAdd a w.doc (idf * w.tfidf)) acc

/-- The numerator accumulation of `DocumentRanker.rank_documents`
(document_ranker.py:44-69). Python iterates over `set(query_terms)`, whose
order is unspecified; the set of unique terms is modelled as `List.dedup`. -/
def docNumerators (indexTerms : TermsMap) (uniqueQueryTerms : List String)
    (candidateDocs : Option (Finset String)) : List (String × ℚ) :=
  uniqueQueryTerms.foldl (fun acc term =>
    match dictGet indexTerms term with
    | none => acc
    | some e => accumTermWeights candidateDocs e.idf e.weights acc) []

/-- Descending-score comparison used by the final sort
(document_ranker.py:92, `sort(key=score, reverse=True)`). -/
def scoreGE (a b : ScoredDoc) : Prop := b.score ≤ a.score

instance : DecidableRel scoreGE := fun a b => inferInstanceAs (Decidable (b.score ≤ a.score))

/-- `DocumentRanker.rank_documents` (document_ranker.py:22-94). Python's
`list.sort` is a stable sort; it is modelled by the (stable) insertion sort. -/
def rankDocuments (indexTerms : TermsMap) (docNorms : List (String × ℚ))
    (queryTerms : List String) (queryNorm : ℚ)
    (candidateDocs : Option (Finset String)) : List ScoredDoc :=
  let uniqueQueryTerms := queryTerms.dedup
  if queryNorm = 0 then []
  else
    let nums := docNumerators indexTerms uniqueQueryTerms candidateDocs
    if nums = [] then []
    else
      let docScores := nums.filterMap (fun p =>
        let dn := (dictGet docNorms p.1).getD 0
        if dn = 0 then none else some ⟨p.1, p.2 / (dn * queryNorm)⟩)
      docScores.insertionSort scoreGE

/-- `top_docs = ranked_docs[:self.max_results]` (search_engine.py:186). -/
def limitResults (ranked : List ScoredDoc) (maxResults : ℕ) : List ScoredDoc :=
  ranked.take maxResults

/-- The `sum_squares` accumulation of `compute_query_norm`
(query_processor.py:19-28): sum of squared idf over the unique query terms
present in the index. -/
def querySumSquares (queryTerms : List String) (indexTerms : TermsMap) : ℚ :=
  (queryTerms.dedup).foldl (fun s t =>
    match dictGet indexTerms t with
    | some e => s + e.idf ^ 2
    | none => s) 0

/-- `compute_query_norm` (query_processor.py:7-30); `math.sqrt` is an external
float-library function, passed in as `msqrt`. -/
def computeQueryNorm (msqrt : ℚ → ℚ) (queryTerms : List String)
    (indexTerms : TermsMap) : ℚ :=
  msqrt (querySumSquares queryTerms indexTerms)

instance : IsTotal ScoredDoc scoreGE := ⟨fun a b => le_total b.score a.score⟩

instance : IsTrans ScoredDoc scoreGE := ⟨fun _ _ _ h1 h2 => le_trans h2 h1⟩

/-- C6 (amended): the ranked list is sorted in descending score order, and the
search layer truncates it to the configured maximum result count. Equal-score
documents keep the stable sort's accumulation order; no doc_id tiebreak. -/
theorem rankDocuments_sorted_and_truncated (indexTerms : TermsMap)
    (docNorms : List (String × ℚ)) (qts : List String) (qn : ℚ)
    (cands : Option (Finset String)) (m : ℕ) :
    (rankDocuments indexTerms docNorms qts qn cands).Sorted scoreGE ∧
    (limitResults (rankDocuments indexTerms docNorms qts qn cands) m).length ≤ m := by
  constructor
  · rw [rankDocuments]
    by_cases h1 : qn = 0
    · simp only [if_pos h1]
      exact List.sorted_nil
    · simp only [if_neg h1]
      by_cases h2 : docNumerators indexTerms qts.dedup cands = []
      · simp only [if_pos h2]
        exact List.sorted_nil
      · simp only [if_neg h2]
        exact List.sorted_insertionSort scoreGE _
  · rw [limitResults, List.length_take]
    exact min_le_left _ _

/-- C6 counterexample: two documents with equal scores are returned in the
posting-list (accumulation) order `["b", "a"]`, not in ascending doc_id
order, although `"a" < "b"`. -/
theorem rankDocuments_ties_unordered :
    rankDocuments [("t", ⟨1, [⟨"b", 1, []⟩, ⟨"a", 1, []⟩]⟩)] [("b", 1), ("a", 1)]
      ["t"] 1 none = [⟨"b", 1⟩, ⟨"a", 1⟩] ∧ ("a" : String) < "b" := by
  constructor
  · norm_num [rankDocuments, docNumerators, accumTermWeights, updateAdd, dictGet,
      List.dedup_cons_of_not_mem, List.insertionSort, List.orderedInsert, scoreGE,
      show ("b" : String) ≠ "a" from by decide]
    exact fun h => absurd h (List.cons_ne_nil _ _)
  · simp only [String.lt_iff_toList_lt]
    decide

/-- The candidate-set test of document_ranker.py:58: a document passes when no
candidate filter is given or it belongs to the candidate set. -/
def passCand : Option (Finset String) → String → Prop
  | none, _ => True
  | some c, d => d ∈ c

instance : ∀ (cands : Option (Finset String)) (d : String), Decidable (passCand cands d)
  | none, _ => inferInstanceAs (Decidable True)
  | some c, d => inferInstanceAs (Decidable (d ∈ c))

/-- Total tfidf weight that a weight-entry list gives to document `d`. -/
def wsum (ws : List WeightEntry) (d : String) : ℚ :=
  (ws.map (fun w => if w.doc = d then w.tfidf else 0)).sum

/-- Sum of squared tfidf weights a weight-entry list gives to document `d`. -/
def wsumSq (ws : List WeightEntry) (d : String) : ℚ :=
  (ws.map (fun w => if w.doc = d then w.tfidf ^ 2 else 0)).sum

/-- The per-document accumulation `doc_squared_sums[doc_id] += weight ** 2`
of `DocumentIndexer.compute_tfidf` (indexer.py:80-103), read off the
serialized index: the sum over all terms of the squared tfidf weights for
document `d`. -/
def docSumSquares (indexTerms : TermsMap) (d : String) : ℚ :=
  (indexTerms.map (fun te => wsumSq te.2.weights d)).sum

/-- The idf the ranker reads for a term (`0` when the term is absent). -/
def idfOf (indexTerms : TermsMap) (t : String) : ℚ :=
  match dictGet indexTerms t with
  | some e => e.idf
  | none => 0

/-- The tfidf mass term `t` contributes to document `d` after the candidate
filter. -/
def candWeight (indexTerms : TermsMap) (cands : Option (Finset String))
    (t d : String) : ℚ :=
  match dictGet indexTerms t with
  | some e => if passCand cands d then wsum e.weights d else 0
  | none => 0

/-- The value stored for key `d` (0 when absent), i.e. Python's
`m.get(d, 0.0)`. -/
def valOf (m : List (String × ℚ)) (d : String) : ℚ :=
  (dictGet m d).getD 0

lemma dictGet_mem {m : List (String × α)} {k : String} {v : α}
    (h : dictGet m k = some v) : (k, v) ∈ m := by
  induction m with
  | nil => cases h
  | cons p t ih =>
    obtain ⟨k', v'⟩ := p
    rw [dictGet] at h
    by_cases hk : k' = k
    · rw [if_pos hk] at h
      cases h
      subst hk
      exact List.mem_cons_self _ _
    · rw [if_neg hk] at h
      exact List.mem_cons_of_mem _ (ih h)

lemma dictGet_eq_some_of_mem_nodup {m : List (String × α)} {k : String} {v : α}
    (hn : (m.map Prod.fst).Nodup) (hm : (k, v) ∈ m) : dictGet m k = some v := by
  induction m with
  | nil => cases hm
  | cons p t ih =>
    obtain ⟨k', v'⟩ := p
    rw [List.map_cons, List.nodup_cons] at hn
    rcases List.mem_cons.mp hm with h | h
    · cases h
      rw [dictGet, if_pos rfl]
    · rw [dictGet]
      by_cases hk : k' = k
      · subst hk
        exact absurd (List.mem_map.mpr ⟨(k', v), h, rfl⟩) hn.1
      · rw [if_neg hk]
        exact ih hn.2 h

lemma valOf_updateAdd (m : List (String × ℚ)) (k d : String) (v : ℚ) :
    valOf (updateAdd m k v) d = valOf m d + (if d = k then v else 0) := by
  induction m with
  | nil =>
    rw [updateAdd, valOf, valOf, dictGet, dictGet]
    by_cases hk : k = d
    · rw [if_pos hk, if_pos hk.symm]
      simp
    · rw [if_neg hk, if_neg (fun h => hk h.symm), dictGet]
      simp
  | cons p t ih =>
    obtain ⟨k', v'⟩ := p
    rw [updateAdd]
    by_cases hk : k' = k
    · subst hk
      rw [if_pos rfl, valOf, valOf, dictGet, dictGet]
      by_cases hd : k' = d
      · rw [if_pos hd, if_pos hd, if_pos hd.symm]
        simp [add_assoc, add_comm v']
      · rw [if_neg hd, if_neg hd, if_neg (fun h => hd h.symm)]
        simp
    · rw [if_neg hk, valOf, valOf, dictGet, dictGet]
      by_cases hd : k' = d
      · rw [if_pos hd, if_pos hd]
        have : ¬ d = k := fun h => hk (hd.trans h)
        rw [if_neg this]
        simp
      · rw [if_neg hd, if_neg hd]
        exact ih

lemma updateAdd_keys_mem (m : List (String × ℚ)) (k : String) (v : ℚ)
    (h : k ∈ m.map Prod.fst) :
    (updateAdd m k v).map Prod.fst = m.map Prod.fst := by
  induction m with
  | nil => cases h
  | cons p t ih =>
    obtain ⟨k', v'⟩ := p
    rw [updateAdd]
    by_cases hk : k' = k
    · rw [if_pos hk]
      simp
    · rw [if_neg hk, List.map_cons, List.map_cons]
      rcases List.mem_cons.mp h with h' | h'
      · exact absurd h'.symm hk
      · rw [ih h']

lemma updateAdd_keys_not_mem (m : List (String × ℚ)) (k : String) (v : ℚ)
    (h : k ∉ m.map Prod.fst) :
    (updateAdd m k v).map Prod.fst = m.map Prod.fst ++ [k] := by
  induction m with
  | nil => rfl
  | cons p t ih =>
    obtain ⟨k', v'⟩ := p
    rw [updateAdd]
    by_cases hk : k' = k
    · exact absurd (hk ▸ List.mem_cons_self _ _) h
    · rw [if_neg hk, List.map_cons, List.map_cons, List.cons_append,
        ih (fun hc => h (List.mem_cons_of_mem _ hc))]

lemma updateAdd_keys_nodup (m : List (String × ℚ)) (k : String) (v : ℚ)
    (h : (m.map Prod.fst).Nodup) : ((updateAdd m k v).map Prod.fst).Nodup := by
  by_cases hk : k ∈ m.map Prod.fst
  · rw [updateAdd_keys_mem m k v hk]
    exact h
  · rw [updateAdd_keys_not_mem m k v hk]
    rw [List.nodup_append]
    exact ⟨h, List.nodup_singleton k, by simpa using hk⟩

lemma valOf_accumTermWeights (cands : Option (Finset String)) (idf : ℚ)
    (ws : List WeightEntry) (acc : List (String × ℚ)) (d : String) :
    valOf (accumTermWeights cands idf ws acc) d =
      valOf acc d + (if passCand cands d then idf * wsum ws d else 0) := by
  induction ws generalizing acc with
  | nil =>
    rw [accumTermWeights, List.foldl_nil, wsum]
    simp
  | cons w rest ih =>
    rw [accumTermWeights, List.foldl_cons, ← accumTermWeights]
    have hws : wsum (w :: rest) d = (if w.doc = d then w.tfidf else 0) + wsum rest d := by
      rw [wsum, List.map_cons, List.sum_cons, ← wsum]
    rcases cands with _ | c
    · dsimp only
      rw [ih, valOf_updateAdd, hws]
      rw [if_pos (show passCand none d from trivial), if_pos (show passCand none d from trivial)]
      by_cases hwd : w.doc = d
      · rw [if_pos hwd, if_pos hwd.symm]
        ring
      · rw [if_neg hwd, if_neg (fun h => hwd h.symm)]
        ring
    · dsimp only
      by_cases hdc : w.doc ∈ c
      · rw [if_neg (not_not_intro hdc), ih, valOf_updateAdd, hws]
        by_cases hwd : w.doc = d
        · subst hwd
          rw [if_pos (show passCand (some c) w.doc from hdc),
            if_pos (show passCand (some c) w.doc from hdc), if_pos rfl, if_pos rfl]
          ring
        · rw [if_neg (fun h => hwd h.symm), if_neg hwd]
          by_cases hp : passCand (some c) d
          · rw [if_pos hp, if_pos hp]
            ring
          · rw [if_neg hp, if_neg hp]
            ring
      · rw [if_pos hdc, ih, hws]
        by_cases hwd : w.doc = d
        · subst hwd
          rw [if_neg (show ¬ passCand (some c) w.doc from hdc),
            if_neg (show ¬ passCand (some c) w.doc from hdc)]
        · rw [if_neg hwd]
          by_cases hp : passCand (some c) d
          · rw [if_pos hp, if_pos hp]
            ring
          · rw [if_neg hp, if_neg hp]

lemma accumTermWeights_keys_nodup (cands : Option (Finset String)) (idf : ℚ)
    (ws : List WeightEntry) (acc : List (String × ℚ))
    (h : (acc.map Prod.fst).Nodup) :
    ((accumTermWeights cands idf ws acc).map Prod.fst).Nodup := by
  induction ws generalizing acc with
  | nil => exact h
  | cons w rest ih =>
    rw [accumTermWeights, List.foldl_cons, ← accumTermWeights]
    rcases cands with _ | c
    · exact ih _ (updateAdd_keys_nodup _ _ _ h)
    · dsimp only
      by_cases hdc : w.doc ∈ c
      · rw [if_neg (not_not_intro hdc)]
        exact ih _ (updateAdd_keys_nodup _ _ _ h)
      · rw [if_pos hdc]
        exact ih _ h

lemma docNumerators_aux (indexTerms : TermsMap) (uq : List String)
    (cands : Option (Finset String)) (acc : List (String × ℚ)) (d : String) :
    valOf (uq.foldl (fun acc term =>
      match dictGet indexTerms term with
      | none => acc
      | some e => accumTermWeights cands e.idf e.weights acc) acc) d =
    valOf acc d + (uq.map (fun t => idfOf indexTerms t * candWeight indexTerms cands t d)).sum := by
  induction uq generalizing acc with
  | nil => simp
  | cons t rest ih =>
    rw [List.foldl_cons, List.map_cons, List.sum_cons]
    rcases he : dictGet indexTerms t with _ | e
    · rw [ih]
      simp only [idfOf, candWeight, he]
      ring
    · rw [ih, valOf_accumTermWeights]
      simp only [idfOf, candWeight, he]
      by_cases hp : passCand cands d
      · rw [if_pos hp, if_pos hp]
        ring
      · rw [if_neg hp, if_neg hp]
        ring

lemma valOf_docNumerators (indexTerms : TermsMap) (uq : List String)
    (cands : Option (Finset String)) (d : String) :
    valOf (docNumerators indexTerms uq cands) d =
      (uq.map (fun t => idfOf indexTerms t * candWeight indexTerms cands t d)).sum := by
  rw [docNumerators, docNumerators_aux]
  simp [valOf, dictGet]

lemma docNumerators_keys_nodup (indexTerms : TermsMap) (uq : List String)
    (cands : Option (Finset String)) :
    ((docNumerators indexTerms uq cands).map Prod.fst).Nodup := by
  rw [docNumerators]
  have : ∀ acc : List (String × ℚ), (acc.map Prod.fst).Nodup →
      ((uq.foldl (fun acc term =>
        match dictGet indexTerms term with
        | none => acc
        | some e => accumTermWeights cands e.idf e.weights acc) acc).map Prod.fst).Nodup := by
    induction uq with
    | nil => exact fun acc h => h
    | cons t rest ih =>
      intro acc h
      rw [List.foldl_cons]
      rcases he : dictGet indexTerms t with _ | e
      · exact ih acc h
      · exact ih _ (accumTermWeights_keys_nodup _ _ _ _ h)
  exact this [] List.nodup_nil

lemma querySumSquares_eq (qts : List String) (indexTerms : TermsMap) :
    querySumSquares qts indexTerms =
      (qts.dedup.map (fun t => idfOf indexTerms t ^ 2)).sum := by
  rw [querySumSquares]
  have : ∀ (l : List String) (c : ℚ), l.foldl (fun s t =>
      match dictGet indexTerms t with
      | some e => s + e.idf ^ 2
      | none => s) c = c + (l.map (fun t => idfOf indexTerms t ^ 2)).sum := by
    intro l
    induction l with
    | nil => simp
    | cons t rest ih =>
      intro c
      rw [List.foldl_cons, List.map_cons, List.sum_cons]
      rcases he : dictGet indexTerms t with _ | e
      · rw [ih]
        simp only [idfOf, he]
        ring
      · rw [ih]
        simp only [idfOf, he]
        ring
  rw [this]
  simp

/-- Per-term squared tfidf mass for document `d` (0 when the term is
absent). -/
def entrySq (indexTerms : TermsMap) (t d : String) : ℚ :=
  match dictGet indexTerms t with
  | some e => wsumSq e.weights d
  | none => 0

lemma dictGet_eq_none_of_not_mem_keys {m : List (String × α)} {k : String}
    (h : k ∉ m.map Prod.fst) : dictGet m k = none := by
  induction m with
  | nil => rfl
  | cons p t ih =>
    obtain ⟨k', v'⟩ := p
    rw [dictGet]
    by_cases hk : k' = k
    · exact absurd (hk ▸ List.mem_cons_self _ _) h
    · rw [if_neg hk]
      exact ih (fun hc => h (List.mem_cons_of_mem _ hc))

lemma wsum_nonneg {ws : List WeightEntry} (d : String)
    (h : ∀ w ∈ ws, 0 ≤ w.tfidf) : 0 ≤ wsum ws d := by
  apply List.sum_nonneg
  intro x hx
  obtain ⟨w, hw, rfl⟩ := List.mem_map.mp hx
  by_cases hd : w.doc = d
  · rw [if_pos hd]
    exact h w hw
  · rw [if_neg hd]

lemma wsumSq_nonneg (ws : List WeightEntry) (d : String) : 0 ≤ wsumSq ws d := by
  apply List.sum_nonneg
  intro x hx
  obtain ⟨w, hw, rfl⟩ := List.mem_map.mp hx
  by_cases hd : w.doc = d
  · rw [if_pos hd]
    exact sq_nonneg _
  · rw [if_neg hd]

lemma wsum_eq_zero_of_not_mem {ws : List WeightEntry} {d : String}
    (h : d ∉ ws.map WeightEntry.doc) : wsum ws d = 0 := by
  rw [wsum]
  apply List.sum_eq_zero
  intro x hx
  obtain ⟨w, hw, rfl⟩ := List.mem_map.mp hx
  rw [if_neg (fun hd => h (List.mem_map.mpr ⟨w, hw, hd⟩))]

lemma wsum_sq_le_wsumSq {ws : List WeightEntry} (d : String)
    (hn : (ws.map WeightEntry.doc).Nodup) : wsum ws d ^ 2 ≤ wsumSq ws d := by
  induction ws with
  | nil =>
    rw [wsum, wsumSq]
    simp
  | cons w rest ih =>
    rw [List.map_cons, List.nodup_cons] at hn
    have hw : wsum (w :: rest) d = (if w.doc = d then w.tfidf else 0) + wsum rest d := by
      rw [wsum, List.map_cons, List.sum_cons, ← wsum]
    have hwq : wsumSq (w :: rest) d = (if w.doc = d then w.tfidf ^ 2 else 0) + wsumSq rest d := by
      rw [wsumSq, List.map_cons, List.sum_cons, ← wsumSq]
    rw [hw, hwq]
    by_cases hd : w.doc = d
    · rw [if_pos hd, if_pos hd, wsum_eq_zero_of_not_mem (hd ▸ hn.1)]
      have := wsumSq_nonneg rest d
      nlinarith
    · rw [if_neg hd, if_neg hd, zero_add, zero_add]
      exact ih hn.2

lemma idfOf_nonneg {indexTerms : TermsMap}
    (hidf : ∀ p ∈ indexTerms, 0 ≤ p.2.idf) (t : String) : 0 ≤ idfOf indexTerms t := by
  rw [idfOf]
  rcases he : dictGet indexTerms t with _ | e
  · exact le_refl 0
  · exact hidf _ (dictGet_mem he)

lemma candWeight_nonneg {indexTerms : TermsMap} (cands : Option (Finset String))
    (htfidf : ∀ p ∈ indexTerms, ∀ w ∈ p.2.weights, 0 ≤ w.tfidf) (t d : String) :
    0 ≤ candWeight indexTerms cands t d := by
  rw [candWeight]
  rcases he : dictGet indexTerms t with _ | e
  · exact le_refl 0
  · dsimp only
    by_cases hp : passCand cands d
    · rw [if_pos hp]
      exact wsum_nonneg d (htfidf _ (dictGet_mem he))
    · rw [if_neg hp]

lemma candWeight_sq_le_entrySq {indexTerms : TermsMap} (cands : Option (Finset String))
    (hwdocs : ∀ p ∈ indexTerms, (p.2.weights.map WeightEntry.doc).Nodup) (t d : String) :
    candWeight indexTerms cands t d ^ 2 ≤ entrySq indexTerms t d := by
  rw [candWeight, entrySq]
  rcases he : dictGet indexTerms t with _ | e
  · simp
  · dsimp only
    by_cases hp : passCand cands d
    · rw [if_pos hp]
      exact wsum_sq_le_wsumSq d (hwdocs _ (dictGet_mem he))
    · rw [if_neg hp]
      have := wsumSq_nonneg e.weights d
      nlinarith

lemma entrySq_nonneg (indexTerms : TermsMap) (t d : String) :
    0 ≤ entrySq indexTerms t d := by
  rw [entrySq]
  rcases dictGet indexTerms t with _ | e
  · exact le_refl 0
  · exact wsumSq_nonneg _ _

lemma sum_entrySq_le_docSumSquares {indexTerms : TermsMap} (d : String)
    (hkeys : (indexTerms.map Prod.fst).Nodup) (s : Finset String) :
    ∑ t in s, entrySq indexTerms t d ≤ docSumSquares indexTerms d := by
  set K := (indexTerms.map Prod.fst).toFinset with hK
  have hvanish : ∀ t ∈ s, t ∉ s ∩ K → entrySq indexTerms t d = 0 := by
    intro t hts htK
    have : t ∉ K := fun hk => htK (Finset.mem_inter.mpr ⟨hts, hk⟩)
    rw [entrySq, dictGet_eq_none_of_not_mem_keys (fun hm => this (List.mem_toFinset.mpr hm))]
  rw [← Finset.sum_subset (Finset.inter_subset_left) (fun t ht htn => hvanish t ht htn)]
  have hsub : ∑ t in s ∩ K, entrySq indexTerms t d ≤ ∑ t in K, entrySq indexTerms t d :=
    Finset.sum_le_sum_of_subset_of_nonneg (Finset.inter_subset_right)
      (fun t _ _ => entrySq_nonneg indexTerms t d)
  refine hsub.trans ?_
  rw [hK, List.sum_toFinset _ hkeys, List.map_map]
  have hmap : indexTerms.map ((fun t => entrySq indexTerms t d) ∘ Prod.fst) =
      indexTerms.map (fun te => wsumSq te.2.weights d) := by
    apply List.map_congr_left
    intro te hte
    have : dictGet indexTerms te.1 = some te.2 := by
      apply dictGet_eq_some_of_mem_nodup hkeys
      exact (Prod.mk.eta (p := te)) ▸ hte
    simp only [Function.comp_apply, entrySq, this]
  rw [hmap, docSumSquares]

lemma numerator_nonneg {indexTerms : TermsMap} (cands : Option (Finset String))
    (qts : List String) (d : String)
    (hidf : ∀ p ∈ indexTerms, 0 ≤ p.2.idf)
    (htfidf : ∀ p ∈ indexTerms, ∀ w ∈ p.2.weights, 0 ≤ w.tfidf) :
    0 ≤ (qts.dedup.map
      (fun t => idfOf indexTerms t * candWeight indexTerms cands t d)).sum := by
  apply List.sum_nonneg
  intro x hx
  obtain ⟨t, _, rfl⟩ := List.mem_map.mp hx
  exact mul_nonneg (idfOf_nonneg hidf t) (candWeight_nonneg cands htfidf t d)

lemma numerator_le_norms {indexTerms : TermsMap} (cands : Option (Finset String))
    (qts : List String) (d : String) (qn dn : ℚ)
    (hkeys : (indexTerms.map Prod.fst).Nodup)
    (hidf : ∀ p ∈ indexTerms, 0 ≤ p.2.idf)
    (htfidf : ∀ p ∈ indexTerms, ∀ w ∈ p.2.weights, 0 ≤ w.tfidf)
    (hwdocs : ∀ p ∈ indexTerms, (p.2.weights.map WeightEntry.doc).Nodup)
    (hqn0 : 0 ≤ qn) (hqn2 : qn ^ 2 = querySumSquares qts indexTerms)
    (hdn0 : 0 ≤ dn) (hdn2 : dn ^ 2 = docSumSquares indexTerms d) :
    (qts.dedup.map
      (fun t => idfOf indexTerms t * candWeight indexTerms cands t d)).sum ≤ qn * dn := by
  set A := fun t => idfOf indexTerms t
  set B := fun t => candWeight indexTerms cands t d
  set L := qts.dedup with hL
  have hnodup : L.Nodup := List.nodup_dedup qts
  have hsum : (L.map (fun t => A t * B t)).sum = ∑ t in L.toFinset, A t * B t :=
    (List.sum_toFinset _ hnodup).symm
  have hcs : (∑ t in L.toFinset, A t * B t) ^ 2 ≤
      (∑ t in L.toFinset, A t ^ 2) * ∑ t in L.toFinset, B t ^ 2 :=
    Finset.sum_mul_sq_le_sq_mul_sq _ _ _
  have hA : ∑ t in L.toFinset, A t ^ 2 = qn ^ 2 := by
    rw [hqn2, querySumSquares_eq, ← hL, List.sum_toFinset _ hnodup]
  have hB : ∑ t in L.toFinset, B t ^ 2 ≤ dn ^ 2 := by
    rw [hdn2]
    refine le_trans (Finset.sum_le_sum ?_) (sum_entrySq_le_docSumSquares d hkeys L.toFinset)
    intro t _
    exact candWeight_sq_le_entrySq cands hwdocs t d
  have hnum0 : 0 ≤ (L.map (fun t => A t * B t)).sum := numerator_nonneg cands qts d hidf htfidf
  have hq2 : (0:ℚ) ≤ qn ^ 2 := sq_nonneg qn
  have hfin : ((L.map (fun t => A t * B t)).sum) ^ 2 ≤ (qn * dn) ^ 2 := by
    rw [hsum]
    calc (∑ t in L.toFinset, A t * B t) ^ 2 ≤
        (∑ t in L.toFinset, A t ^ 2) * ∑ t in L.toFinset, B t ^ 2 := hcs
      _ ≤ qn ^ 2 * dn ^ 2 := by
          rw [hA]
          exact mul_le_mul_of_nonneg_left hB hq2
      _ = (qn * dn) ^ 2 := by ring
  nlinarith [mul_nonneg hqn0 hdn0]

/-- C9: for an index with the indexer's invariants (nonnegative idf since
`df ≤ N`, nonnegative tfidf since `count ≥ 1` and `df ≤ N`, per-term weights
listing each document once, doc norms equal to the square root of the summed
squared weights) and a query norm equal to the square root of the summed
squared idfs, every similarity score produced by `rank_documents` lies in
`[0, 1]`. -/
theorem rankDocuments_scores_unit_interval (indexTerms : TermsMap)
    (docNorms : List (String × ℚ)) (qts : List String) (qn : ℚ)
    (cands : Option (Finset String))
    (hkeys : (indexTerms.map Prod.fst).Nodup)
    (hidf : ∀ p ∈ indexTerms, 0 ≤ p.2.idf)
    (htfidf : ∀ p ∈ indexTerms, ∀ w ∈ p.2.weights, 0 ≤ w.tfidf)
    (hwdocs : ∀ p ∈ indexTerms, (p.2.weights.map WeightEntry.doc).Nodup)
    (hqn0 : 0 ≤ qn) (hqn2 : qn ^ 2 = querySumSquares qts indexTerms)
    (hdn : ∀ d, 0 ≤ valOf docNorms d ∧ valOf docNorms d ^ 2 = docSumSquares indexTerms d) :
    ∀ r ∈ rankDocuments indexTerms docNorms qts qn cands,
      0 ≤ r.score ∧ r.score ≤ 1 := by
  intro r hr
  rw [rankDocuments] at hr
  by_cases h1 : qn = 0
  · rw [if_pos h1] at hr
    cases hr
  · rw [if_neg h1] at hr
    by_cases h2 : docNumerators indexTerms qts.dedup cands = []
    · rw [if_pos h2] at hr
      cases hr
    · rw [if_neg h2] at hr
      have hr' : r ∈ (docNumerators indexTerms qts.dedup cands).filterMap (fun p =>
          let dn := (dictGet docNorms p.1).getD 0
          if dn = 0 then none else some ⟨p.1, p.2 / (dn * qn)⟩) :=
        ((List.perm_insertionSort scoreGE _).mem_iff).mp hr
      obtain ⟨⟨d, v⟩, hmem, heq⟩ := List.mem_filterMap.mp hr'
      simp only at heq
      by_cases hdz : (dictGet docNorms d).getD 0 = 0
      · rw [if_pos hdz] at heq
        cases heq
      · rw [if_neg hdz] at heq
        cases heq
        have hv : v = valOf (docNumerators indexTerms qts.dedup cands) d := by
          have := dictGet_eq_some_of_mem_nodup
            (docNumerators_keys_nodup indexTerms qts.dedup cands) hmem
          rw [valOf, this, Option.getD_some]
        have hval : v = (qts.dedup.map
            (fun t => idfOf indexTerms t * candWeight indexTerms cands t d)).sum := by
          rw [hv, valOf_docNumerators]
        have hdn0 : 0 ≤ valOf docNorms d := (hdn d).1
        have hdn2 : valOf docNorms d ^ 2 = docSumSquares indexTerms d := (hdn d).2
        have hdpos : 0 < valOf docNorms d := lt_of_le_of_ne hdn0 (fun h => hdz (by rw [valOf] at h; exact h.symm))
        have hqpos : 0 < qn := lt_of_le_of_ne hqn0 (fun h => h1 h.symm)
        have hnum0 : 0 ≤ v := hval ▸ numerator_nonneg cands qts d hidf htfidf
        have hnumle : v ≤ qn * valOf docNorms d := by
          rw [hval]
          exact numerator_le_norms cands qts d qn (valOf docNorms d)
            hkeys hidf htfidf hwdocs hqn0 hqn2 hdn0 hdn2
        have hdpos' : 0 < (dictGet docNorms d).getD 0 := hdpos
        constructor
        · exact div_nonneg hnum0 (le_of_lt (mul_pos hdpos' hqpos))
        · rw [div_le_one (mul_pos hdpos' hqpos)]
          calc v ≤ qn * valOf docNorms d := hnumle
            _ = valOf docNorms d * qn := by ring
            _ = (dictGet docNorms d).getD 0 * qn := by rw [valOf]

/-- Witness for C9 at a concrete one-term index whose norms satisfy the
square-root hypotheses exactly. -/
theorem rankDocuments_scores_unit_interval_witness :
    (⟨"d", 1⟩ : ScoredDoc) ∈
      rankDocuments [("t", ⟨1, [⟨"d", 1, []⟩]⟩)] [("d", 1)] ["t"] 1 none ∧
    0 ≤ (1 : ℚ) ∧ (1 : ℚ) ≤ 1 := by
  have hlist : rankDocuments [("t", ⟨1, [⟨"d", 1, []⟩]⟩)] [("d", 1)] ["t"] 1 none =
      [⟨"d", 1⟩] := by
    norm_num [rankDocuments, docNumerators, accumTermWeights, updateAdd, dictGet,
      List.dedup_cons_of_not_mem, List.insertionSort, List.orderedInsert, scoreGE]
  have hmem : (⟨"d", 1⟩ : ScoredDoc) ∈
      rankDocuments [("t", ⟨1, [⟨"d", 1, []⟩]⟩)] [("d", 1)] ["t"] 1 none := by
    rw [hlist]
    exact List.mem_singleton_self _
  refine ⟨hmem, ?_⟩
  have hb := rankDocuments_scores_unit_interval
    [("t", ⟨1, [⟨"d", 1, []⟩]⟩)] [("d", 1)] ["t"] 1 none
    (by simp)
    (by
      intro p hp
      simp only [List.mem_singleton] at hp
      subst hp
      norm_num)
    (by
      intro p hp w hw
      simp only [List.mem_singleton] at hp
      subst hp
      simp only [List.mem_singleton] at hw
      subst hw
      norm_num)
    (by
      intro p hp
      simp only [List.mem_singleton] at hp
      subst hp
      simp)
    (by norm_num)
    (by norm_num [querySumSquares, dictGet])
    (by
      intro d
      by_cases hd : d = "d"
      · subst hd
        constructor
        · norm_num [valOf, dictGet]
        · norm_num [valOf, dictGet, docSumSquares, wsumSq]
      · have hne : ¬ ("d" : String) = d := fun h => hd h.symm
        constructor
        · norm_num [valOf, dictGet, hne]
        · norm_num [valOf, dictGet, docSumSquares, wsumSq, hne])
    ⟨"d", 1⟩ hmem
  exact hb

/-- The scan of `positions_for_term_in_doc` over a term's weight entries
(phrase_searcher.py:19-22): first matching document's positions. -/
def findPositions : List WeightEntry → String → List Int
  | [], _ => []
  | w :: ws, doc => if w.doc = doc then w.positions else findPositions ws doc

/-- `positions_for_term_in_doc` (phrase_searcher.py:7-22). -/
def positionsForTermInDoc (termsDict : TermsMap) (term doc : String) : List Int :=
  match dictGet termsDict term with
  | some e => findPositions e.weights doc
  | none => []

/-- `next_pos` (phrase_searcher.py:25-39): first list element `≥ v`
(`float('inf')`, i.e. not found, becomes `none`). -/
def nextPos : List Int → Int → Option Int
  | [], _ => none
  | p :: ps, v => if v ≤ p then some p else nextPos ps v

/-- The accumulator loop of `prev_pos` (phrase_searcher.py:42-59): keep the
last element `≤ u` before the first element `> u`. -/
def prevPosAux : List Int → Int → Option Int → Option Int
  | [], _, acc => acc
  | p :: ps, u, acc => if p ≤ u then prevPosAux ps u (some p) else acc

/-- `prev_pos` (phrase_searcher.py:42-59). -/
def prevPos (l : List Int) (u : Int) : Option Int :=
  prevPosAux l u none

/-- The forward pass of `next_phrase` (phrase_searcher.py:87-97): choose for
each term the next position `≥` the cursor, advancing the cursor past each
chosen position. -/
def forwardPass (termsDict : TermsMap) (doc : String) : List String → Int → Option (List Int)
  | [], _ => some []
  | t :: ts, v =>
    match nextPos (positionsForTermInDoc termsDict t doc) v with
    | none => none
    | some p =>
      match forwardPass termsDict doc ts (p + 1) with
      | none => none
      | some rest => some (p :: rest)

/-- The backward validation pass of `next_phrase` (phrase_searcher.py:103-118),
applied to the reversed term and position lists: each term's previous position
`≤` the cursor must equal the forward-chosen one. -/
def backwardValid (termsDict : TermsMap) (doc : String) :
    List String → List Int → Int → Bool
  | [], [], _ => true
  | t :: ts, exp :: exps, checkV =>
    (match prevPos (positionsForTermInDoc termsDict t doc) checkV with
    | none => false
    | some p => if p = exp then backwardValid termsDict doc ts exps (p - 1) else false)
  | _, _, _ => false

lemma nextPos_spec {l : List Int} {v p : Int} (h : nextPos l v = some p) :
    p ∈ l ∧ v ≤ p := by
  induction l with
  | nil => cases h
  | cons q qs ih =>
    rw [nextPos] at h
    by_cases hv : v ≤ q
    · rw [if_pos hv] at h
      cases h
      exact ⟨List.mem_cons_self _ _, hv⟩
    · rw [if_neg hv] at h
      obtain ⟨hm, hle⟩ := ih h
      exact ⟨List.mem_cons_of_mem _ hm, hle⟩

lemma countP_lt_of_mem {l : List Int} {x a b : Int} (hmem : a ∈ l) (hxa : x ≤ a)
    (hab : a < b) :
    l.countP (fun p => decide (b ≤ p)) < l.countP (fun p => decide (x ≤ p)) := by
  induction l with
  | nil => cases hmem
  | cons y t ih =>
    rw [List.countP_cons, List.countP_cons]
    by_cases hya : y = a
    · subst hya
      rw [decide_eq_false (not_le.mpr hab), decide_eq_true hxa]
      have hmono : t.countP (fun p => decide (b ≤ p)) ≤ t.countP (fun p => decide (x ≤ p)) := by
        apply List.countP_mono_left
        intro q _ hq
        rw [decide_eq_true_eq] at hq
        exact decide_eq_true (le_trans hxa (le_trans (le_of_lt hab) hq))
      simp only [Bool.false_eq_true, if_false, if_true]
      omega
    · have hmem' : a ∈ t := by
        rcases List.mem_cons.mp hmem with h' | h'
        · exact absurd h'.symm hya
        · exact h'
      have hih := ih hmem'
      by_cases hb : b ≤ y
      · rw [decide_eq_true hb, decide_eq_true (le_trans hxa (le_trans (le_of_lt hab) hb))]
        simp only [if_true]
        omega
      · rw [decide_eq_false hb]
        by_cases hx : x ≤ y
        · rw [decide_eq_true hx]
          simp only [Bool.false_eq_true, if_false, if_true]
          omega
        · rw [decide_eq_false hx]
          simp only [Bool.false_eq_true, if_false]
          omega

lemma forwardPass_spec {termsDict : TermsMap} {doc : String} :
    ∀ {qts : List String} {v : Int} {ps : List Int},
    forwardPass termsDict doc qts v = some ps →
    List.Forall₂ (fun t p => p ∈ positionsForTermInDoc termsDict t doc) qts ps ∧
    ps.Chain' (· < ·) ∧ ∀ p ∈ ps, v ≤ p := by
  intro qts
  induction qts with
  | nil =>
    intro v ps h
    rw [forwardPass] at h
    cases h
    exact ⟨List.Forall₂.nil, List.chain'_nil, by simp⟩
  | cons t ts ih =>
    intro v ps h
    rw [forwardPass] at h
    rcases hn : nextPos (positionsForTermInDoc termsDict t doc) v with _ | p
    · simp only [hn] at h
      cases h
    · simp only [hn] at h
      rcases hf : forwardPass termsDict doc ts (p + 1) with _ | rest
      · simp only [hf] at h
        cases h
      · simp only [hf, Option.some.injEq] at h
        subst h
        obtain ⟨hmem, hle⟩ := nextPos_spec hn
        obtain ⟨hall, hchain, hge⟩ := ih hf
        refine ⟨List.Forall₂.cons hmem hall, ?_, ?_⟩
        · rcases rest with _ | ⟨q, rest'⟩
          · simp
          · exact List.Chain'.cons
              (lt_of_lt_of_le (lt_add_one p) (hge q (List.mem_cons_self _ _))) hchain
        · intro q hq
          rcases List.mem_cons.mp hq with rfl | hq'
          · exact hle
          · exact le_trans hle (le_trans (le_of_lt (lt_add_one p)) (hge q hq'))

/-- `next_phrase` (phrase_searcher.py:62-125): forward pass, backward
validation, and on failure a recursive retry from `u + 1`. The Python
guard `if not query_terms: return None` coincides with the `some []`
branch, since the forward pass of an empty phrase returns an empty
position list. -/
def nextPhrase (termsDict : TermsMap) (qts : List String) (doc : String)
    (startV : Int) : Option (Int × Int) :=
  match hf : forwardPass termsDict doc qts startV with
  | none => none
  | some [] => none
  | some (p :: rest) =>
    let v := (p :: rest).getLast (List.cons_ne_nil p rest)
    if backwardValid termsDict doc qts.reverse (p :: rest).reverse v
    then some (p, v)
    else nextPhrase termsDict qts doc (p + 1)
termination_by
  (positionsForTermInDoc termsDict (qts.headD "") doc).countP (fun q => decide (startV ≤ q))
decreasing_by
  rcases qts with _ | ⟨t0, ts⟩
  · rw [forwardPass] at hf
    simp at hf
  · rw [forwardPass] at hf
    rcases hn : nextPos (positionsForTermInDoc termsDict t0 doc) startV with _ | p0
    · simp only [hn] at hf
      cases hf
    · simp only [hn] at hf
      rcases hr : forwardPass termsDict doc ts (p0 + 1) with _ | rest0
      · simp only [hr] at hf
        cases hf
      · simp only [hr, Option.some.injEq] at hf
        injection hf with h1 h2
        subst h1
        obtain ⟨hm, hle⟩ := nextPos_spec hn
        simpa using countP_lt_of_mem hm hle (lt_add_one p0)

lemma forall₂_mem_exists {α β : Type} {R : α → β → Prop} {as : List α} {bs : List β}
    (h : List.Forall₂ R as bs) {a : α} (ha : a ∈ as) : ∃ b ∈ bs, R a b := by
  induction h with
  | nil => cases ha
  | cons hr _ ih =>
    rcases List.mem_cons.mp ha with rfl | ha'
    · exact ⟨_, List.mem_cons_self _ _, hr⟩
    · obtain ⟨b, hb, hrb⟩ := ih ha'
      exact ⟨b, List.mem_cons_of_mem _ hb, hrb⟩

lemma forall₂_getLast? {α β : Type} {R : α → β → Prop} {as : List α} {bs : List β}
    (h : List.Forall₂ R as bs) {b : β} (hb : bs.getLast? = some b) :
    ∃ a, as.getLast? = some a ∧ R a b := by
  induction h with
  | nil => cases hb
  | cons hr hall ih =>
    rename_i x y xs ys
    rcases ys with _ | ⟨y', ys'⟩
    · cases hall
      simp only [List.getLast?_singleton, Option.some.injEq] at hb
      subst hb
      exact ⟨x, by simp, hr⟩
    · rw [List.getLast?_cons_cons] at hb
      obtain ⟨a, ha, hab⟩ := ih hb
      rcases hall with _ | ⟨hr', hall'⟩
      · exact ⟨a, by rw [List.getLast?_cons_cons]; exact ha, hab⟩

lemma chain'_lt_le_getLast : ∀ {ps : List Int} {v : Int}, ps.Chain' (· < ·) →
    ps.getLast? = some v → ∀ p ∈ ps, p ≤ v := by
  intro ps
  induction ps with
  | nil => intro v _ _ p hp; cases hp
  | cons a l ih =>
    intro v hchain hlast p hp
    rcases l with _ | ⟨b, l'⟩
    · simp only [List.getLast?_singleton, Option.some.injEq] at hlast
      subst hlast
      rcases List.mem_singleton.mp hp with rfl
      exact le_refl p
    · rw [List.getLast?_cons_cons] at hlast
      have hchain' : (b :: l').Chain' (· < ·) := hchain.tail
      have hab : a < b := List.chain'_cons.mp hchain |>.1
      rcases List.mem_cons.mp hp with rfl | hp'
      · exact le_trans (le_of_lt hab) (ih hchain' hlast b (List.mem_cons_self _ _))
      · exact ih hchain' hlast p hp'

lemma nextPhrase_fp_none {td : TermsMap} {qts : List String} {doc : String} {s : Int}
    (hf : forwardPass td doc qts s = none) : nextPhrase td qts doc s = none := by
  rw [nextPhrase.eq_def]
  split
  · rfl
  · rfl
  · rename_i p rest heq
    rw [hf] at heq
    cases heq

lemma nextPhrase_fp_nil {td : TermsMap} {qts : List String} {doc : String} {s : Int}
    (hf : forwardPass td doc qts s = some []) : nextPhrase td qts doc s = none := by
  rw [nextPhrase.eq_def]
  split
  · rfl
  · rfl
  · rename_i p rest heq
    rw [hf] at heq
    simp at heq

lemma nextPhrase_fp_cons {td : TermsMap} {qts : List String} {doc : String} {s : Int}
    {p : Int} {rest : List Int} (hf : forwardPass td doc qts s = some (p :: rest)) :
    nextPhrase td qts doc s =
      if backwardValid td doc qts.reverse (p :: rest).reverse
          ((p :: rest).getLast (List.cons_ne_nil p rest))
      then some (p, (p :: rest).getLast (List.cons_ne_nil p rest))
      else nextPhrase td qts doc (p + 1) := by
  rw [nextPhrase.eq_def]
  split
  · rename_i heq
    rw [hf] at heq
    cases heq
  · rename_i heq
    rw [hf] at heq
    simp at heq
  · rename_i p' rest' heq
    rw [hf] at heq
    injection heq with h1
    injection h1 with hp hr
    subst hp
    subst hr
    rfl

/-- What a span returned by `next_phrase` guarantees: the chosen positions
exist for each term in order, are strictly increasing, start at `u ≥ startV`
and end at `v`. No character-gap (tolerance) condition is checked. -/
lemma nextPhrase_spec (td : TermsMap) (qts : List String) (doc : String) (s : Int) :
    ∀ u v : Int, nextPhrase td qts doc s = some (u, v) →
    s ≤ u ∧ ∃ ps, List.Forall₂ (fun t p => p ∈ positionsForTermInDoc td t doc) qts ps ∧
      ps.Chain' (· < ·) ∧ ps.head? = some u ∧ ps.getLast? = some v := by
  refine nextPhrase.induct td qts doc
    (fun s => ∀ u v : Int, nextPhrase td qts doc s = some (u, v) →
      s ≤ u ∧ ∃ ps, List.Forall₂ (fun t p => p ∈ positionsForTermInDoc td t doc) qts ps ∧
        ps.Chain' (· < ·) ∧ ps.head? = some u ∧ ps.getLast? = some v)
    ?_ ?_ ?_ ?_ s
  · intro x hf u v h
    rw [nextPhrase_fp_none hf] at h
    cases h
  · intro x hf u v h
    rw [nextPhrase_fp_nil hf] at h
    cases h
  · intro x p rest hf lv hvalid u v h
    have hvalid' : backwardValid td doc qts.reverse ((p :: rest).reverse)
        ((p :: rest).getLast (List.cons_ne_nil p rest)) = true := hvalid
    rw [nextPhrase_fp_cons hf, if_pos hvalid'] at h
    injection h with h'
    injection h' with hu hv
    subst hu
    subst hv
    obtain ⟨hall, hchain, hge⟩ := forwardPass_spec hf
    refine ⟨hge p (List.mem_cons_self _ _), p :: rest, hall, hchain, rfl, ?_⟩
    exact List.getLast?_eq_getLast _ _
  · intro x p rest hf lv hinvalid ih u v h
    have hinvalid' : ¬ backwardValid td doc qts.reverse ((p :: rest).reverse)
        ((p :: rest).getLast (List.cons_ne_nil p rest)) = true := hinvalid
    rw [nextPhrase_fp_cons hf, if_neg hinvalid'] at h
    obtain ⟨hle, hex⟩ := ih u v h
    obtain ⟨-, -, hge⟩ := forwardPass_spec hf
    have hxp : x ≤ p := hge p (List.mem_cons_self _ _)
    exact ⟨le_trans hxp (le_trans (le_of_lt (lt_add_one p)) hle), hex⟩

lemma chain'_lt_head_le : ∀ {ps : List Int} {u : Int}, ps.Chain' (· < ·) →
    ps.head? = some u → ∀ p ∈ ps, u ≤ p := by
  intro ps
  induction ps with
  | nil => intro u _ h; cases h
  | cons a l ih =>
    intro u hchain hhead p hp
    injection hhead with ha
    subst ha
    rcases List.mem_cons.mp hp with rfl | hp'
    · exact le_refl p
    · rcases l with _ | ⟨b, l'⟩
      · cases hp'
      · have hab : a < b := (List.chain'_cons.mp hchain).1
        have hchain' : (b :: l').Chain' (· < ·) := hchain.tail
        exact le_trans (le_of_lt hab) (ih hchain' rfl p hp')

/-- The enumeration loop of `all_phrase_occurrences`
(phrase_searcher.py:141-154): repeatedly call `next_phrase`, restarting just
past each match's end position. -/
def allPhraseAux (termsDict : TermsMap) (qts : List String) (doc : String)
    (u : Int) : List (Int × Int) :=
  match hnp : nextPhrase termsDict qts doc u with
  | none => []
  | some (s, e) => (s, e) :: allPhraseAux termsDict qts doc (e + 1)
termination_by
  (positionsForTermInDoc termsDict (qts.getLastD "") doc).countP (fun q => decide (u ≤ q))
decreasing_by
  obtain ⟨hsu, ps, hall, hchain, hhead, hlast⟩ := nextPhrase_spec termsDict qts doc u s e hnp
  obtain ⟨tl, htl, hmem⟩ := forall₂_getLast? hall hlast
  have htl' : qts.getLastD "" = tl := by
    rw [List.getLastD_eq_getLast?, htl, Option.getD_some]
  have hs_mem : s ∈ ps := List.mem_of_mem_head? hhead
  have hse : s ≤ e := chain'_lt_le_getLast hchain hlast s hs_mem
  rw [htl']
  exact countP_lt_of_mem hmem (le_trans hsu hse) (lt_add_one e)

/-- `all_phrase_occurrences` (phrase_searcher.py:128-154). -/
def allPhraseOccurrences (termsDict : TermsMap) (qts : List String) (doc : String) :
    List (Int × Int) :=
  allPhraseAux termsDict qts doc 0

/-- `filter_docs_by_phrase` (phrase_searcher.py:157-184), restricted to the
document set it returns (the occurrence map is carried alongside in Python
and only stored by the caller). A phrase of length `≤ 1` passes all
candidates unchanged. -/
def filterDocsByPhrase (termsDict : TermsMap) (qts : List String)
    (cands : Finset String) : Finset String :=
  if qts.length ≤ 1 then cands
  else cands.filter (fun d => allPhraseOccurrences termsDict qts d ≠ [])

lemma allPhraseAux_of_none {td : TermsMap} {qts : List String} {doc : String} {u : Int}
    (h : nextPhrase td qts doc u = none) : allPhraseAux td qts doc u = [] := by
  rw [allPhraseAux.eq_def]
  split
  · rfl
  · rename_i s e heq
    rw [h] at heq
    cases heq

lemma allPhraseAux_of_some {td : TermsMap} {qts : List String} {doc : String} {u s e : Int}
    (h : nextPhrase td qts doc u = some (s, e)) :
    allPhraseAux td qts doc u = (s, e) :: allPhraseAux td qts doc (e + 1) := by
  rw [allPhraseAux.eq_def]
  split
  · rename_i heq
    rw [h] at heq
    cases heq
  · rename_i s' e' heq
    rw [h] at heq
    injection heq with h1
    injection h1 with hs he
    subst hs
    subst he
    rfl

lemma allPhraseAux_length_le (td : TermsMap) (qts : List String) (doc : String)
    (t : String) (ht : t ∈ qts) :
    ∀ u : Int, (allPhraseAux td qts doc u).length ≤
      (positionsForTermInDoc td t doc).countP (fun q => decide (u ≤ q)) := by
  refine allPhraseAux.induct td qts doc
    (fun u => (allPhraseAux td qts doc u).length ≤
      (positionsForTermInDoc td t doc).countP (fun q => decide (u ≤ q))) ?_ ?_
  · intro u hnone
    rw [allPhraseAux_of_none hnone]
    exact Nat.zero_le _
  · intro u s e hsome ih
    rw [allPhraseAux_of_some hsome, List.length_cons]
    obtain ⟨hsu, ps, hall, hchain, hhead, hlast⟩ := nextPhrase_spec td qts doc u s e hsome
    obtain ⟨pt, hptps, hptpos⟩ := forall₂_mem_exists hall ht
    have hspt : s ≤ pt := chain'_lt_head_le hchain hhead pt hptps
    have hpte : pt ≤ e := chain'_lt_le_getLast hchain hlast pt hptps
    have hcount : (positionsForTermInDoc td t doc).countP (fun q => decide (e + 1 ≤ q)) <
        (positionsForTermInDoc td t doc).countP (fun q => decide (u ≤ q)) :=
      countP_lt_of_mem hptpos (le_trans hsu hspt) (lt_of_le_of_lt hpte (lt_add_one e))
    omega

/-- C10: the all-occurrences phrase enumeration is a total function (the
retry offset strictly increases through each term's finite position list),
and the number of matches it returns is at most the occurrence count of
every term of the phrase in the document — in particular of the rarest
one. -/
theorem allPhraseOccurrences_le_rarest (td : TermsMap) (qts : List String)
    (doc : String) (t : String) (ht : t ∈ qts) :
    (allPhraseOccurrences td qts doc).length ≤
      (positionsForTermInDoc td t doc).length := by
  rw [allPhraseOccurrences]
  exact le_trans (allPhraseAux_length_le td qts doc t ht 0) (List.countP_le_length _)

/-- Index slice used to exhibit phrase behaviour: `"cat"` occurs at offset 0
and `"sat"` at offset 100 of document `"d"` (and nowhere else). -/
def phraseExTerms : TermsMap :=
  [("cat", ⟨0, [⟨"d", 0, [0]⟩]⟩), ("sat", ⟨0, [⟨"d", 0, [100]⟩]⟩)]

/-- Witness for C10 at the concrete example index. -/
theorem allPhraseOccurrences_le_rarest_witness :
    (allPhraseOccurrences phraseExTerms ["cat", "sat"] "d").length ≤
      (positionsForTermInDoc phraseExTerms "cat" "d").length :=
  allPhraseOccurrences_le_rarest phraseExTerms ["cat", "sat"] "d" "cat"
    (List.mem_cons_self _ _)

/-- C2 counterexample: `next_phrase` returns the span `(0, 100)` for the
phrase `"cat sat"` although the gap `100 − (0 + len("cat")) = 97` exceeds
any small tolerance; the code performs no adjacency check at all. -/
theorem nextPhrase_ignores_gaps :
    nextPhrase phraseExTerms ["cat", "sat"] "d" 0 = some (0, 100) ∧
    (100 : ℤ) - (0 + ("cat".length : ℤ)) = 97 := by
  constructor
  · have hf : forwardPass phraseExTerms "d" ["cat", "sat"] 0 = some [0, 100] := by decide
    rw [nextPhrase_fp_cons hf, if_pos (by decide)]
    rfl
  · decide

/-- C2 (amended): a span returned by the phrase matcher satisfies the
forward/backward agreement — the chosen positions exist for each term in
order and are strictly increasing from `u` to `v` at or after the start
offset — but no adjacency-tolerance condition relates consecutive chosen
positions. -/
theorem nextPhrase_span_ordered (td : TermsMap) (qts : List String) (doc : String)
    (s u v : Int) (h : nextPhrase td qts doc s = some (u, v)) :
    s ≤ u ∧ ∃ ps, List.Forall₂ (fun t p => p ∈ positionsForTermInDoc td t doc) qts ps ∧
      ps.Chain' (· < ·) ∧ ps.head? = some u ∧ ps.getLast? = some v :=
  nextPhrase_spec td qts doc s u v h

/-- Witness for the amended C2 at the concrete example index. -/
theorem nextPhrase_span_ordered_witness :
    (0 : ℤ) ≤ 0 ∧ ∃ ps, List.Forall₂
      (fun t p => p ∈ positionsForTermInDoc phraseExTerms t "d") ["cat", "sat"] ps ∧
      ps.Chain' (· < ·) ∧ ps.head? = some 0 ∧ ps.getLast? = some 100 :=
  nextPhrase_span_ordered phraseExTerms ["cat", "sat"] "d" 0 0 100 (by
    have hf : forwardPass phraseExTerms "d" ["cat", "sat"] 0 = some [0, 100] := by decide
    rw [nextPhrase_fp_cons hf, if_pos (by decide)]
    rfl)

/-- Python `text.find(sub, start)` on character lists: smallest index
`≥ start` where `sub` occurs, else `None` (Python's `-1` is applied by the
caller). -/
def findFromAux (pat : List Char) : List Char → Nat → Option Nat
  | [], i => if pat = [] then some i else none
  | c :: rest, i =>
    if pat.isPrefixOf (c :: rest) then some i else findFromAux pat rest (i + 1)

/-- `text_original.find(cleaned_token, current_search_pos)`
(cleaner.py:108). -/
def strFind (text pat : List Char) (start : Nat) : Option Nat :=
  findFromAux pat (text.drop start) start

/-- `term_positions[term].append(token_pos)` on the insertion-ordered
`defaultdict(list)` of cleaner.py:101,120. -/
def appendPos : List (String × List Int) → String → Int → List (String × List Int)
  | [], k, p => [(k, [p])]
  | (k', ps) :: t, k, p =>
    if k' = k then (k', ps ++ [p]) :: t else (k', ps) :: appendPos t k p

/-- The token loop of `extract_terms_with_positions` (cleaner.py:105-120):
locate each cleaned token in the original text (advancing the search cursor
on success, recording `-1` on failure), then filter by stopwords and minimum
length and stem. The tokenizer and stemmer are the external NLTK
collaborators, passed in as values/functions. -/
def extractLoop (stem : String → String) (stopwords : List String) (minLen : Nat)
    (textOrig : List Char) :
    List String → Nat → List String → List (String × List Int) →
      List String × List (String × List Int)
  | [], _, terms, posAcc => (terms, posAcc)
  | tok :: toks, searchPos, terms, posAcc =>
    match strFind textOrig tok.toList searchPos with
    | some i =>
      if tok ∉ stopwords ∧ minLen ≤ tok.length then
        extractLoop stem stopwords minLen textOrig toks (i + 1)
          (terms ++ [stem tok]) (appendPos posAcc (stem tok) (i : Int))
      else
        extractLoop stem stopwords minLen textOrig toks (i + 1) terms posAcc
    | none =>
      if tok ∉ stopwords ∧ minLen ≤ tok.length then
        extractLoop stem stopwords minLen textOrig toks searchPos
          (terms ++ [stem tok]) (appendPos posAcc (stem tok) (-1))
      else
        extractLoop stem stopwords minLen textOrig toks searchPos terms posAcc

/-- `sorted(set(pos))` (cleaner.py:123): the sorted list of the distinct
positions, realised by a stable structural sort of the deduplicated list. -/
def sortedUnique (l : List Int) : List Int :=
  (l.dedup).insertionSort (· ≤ ·)

/-- `extract_terms_with_positions` (cleaner.py:80-125). -/
def extractTermsWithPositions (stem : String → String) (stopwords : List String)
    (minLen : Nat) (textOrig : List Char) (tokensCleaned : List String) :
    List String × List (String × List Int) :=
  let r := extractLoop stem stopwords minLen textOrig tokensCleaned 0 [] []
  (r.1, r.2.map (fun p => (p.1, sortedUnique p.2)))

lemma sortedUnique_sorted_lt (l : List Int) : (sortedUnique l).Sorted (· < ·) := by
  apply List.Sorted.lt_of_le
  · exact List.sorted_insertionSort _ _
  · exact ((List.perm_insertionSort _ _).nodup_iff).mpr (List.nodup_dedup l)

lemma sortedUnique_nodup (l : List Int) : (sortedUnique l).Nodup :=
  ((List.perm_insertionSort _ _).nodup_iff).mpr (List.nodup_dedup l)

lemma mem_sortedUnique {l : List Int} {p : Int} (h : p ∈ sortedUnique l) : p ∈ l :=
  List.mem_dedup.mp ((List.perm_insertionSort _ _).mem_iff.mp h)

lemma appendPos_mem : ∀ {m : List (String × List Int)} {k : String} {p : Int}
    {pa : String × List Int}, pa ∈ appendPos m k p → ∀ q ∈ pa.2,
    (∃ pa' ∈ m, q ∈ pa'.2) ∨ q = p := by
  intro m
  induction m with
  | nil =>
    intro k p pa hpa q hq
    rw [appendPos, List.mem_singleton] at hpa
    subst hpa
    rcases List.mem_singleton.mp hq with rfl
    exact Or.inr rfl
  | cons e t ih =>
    obtain ⟨k', ps⟩ := e
    intro k p pa hpa q hq
    rw [appendPos] at hpa
    by_cases hk : k' = k
    · rw [if_pos hk] at hpa
      rcases List.mem_cons.mp hpa with rfl | hpa'
      · rcases List.mem_append.mp hq with hq' | hq'
        · exact Or.inl ⟨(k', ps), List.mem_cons_self _ _, hq'⟩
        · exact Or.inr (List.mem_singleton.mp hq')
      · exact Or.inl ⟨pa, List.mem_cons_of_mem _ hpa', hq⟩
    · rw [if_neg hk] at hpa
      rcases List.mem_cons.mp hpa with rfl | hpa'
      · exact Or.inl ⟨(k', ps), List.mem_cons_self _ _, hq⟩
      · rcases ih hpa' q hq with ⟨pa', hpa'', hq'⟩ | hq'
        · exact Or.inl ⟨pa', List.mem_cons_of_mem _ hpa'', hq'⟩
        · exact Or.inr hq'

lemma extractLoop_pos_ge (stem : String → String) (stopwords : List String)
    (minLen : Nat) (textOrig : List Char) :
    ∀ (toks : List String) (sp : Nat) (terms : List String)
      (posAcc : List (String × List Int)),
    (∀ pa ∈ posAcc, ∀ p ∈ pa.2, -1 ≤ p) →
    ∀ pa ∈ (extractLoop stem stopwords minLen textOrig toks sp terms posAcc).2,
      ∀ p ∈ pa.2, -1 ≤ p := by
  intro toks
  induction toks with
  | nil =>
    intro sp terms posAcc hacc pa hpa p hp
    exact hacc pa hpa p hp
  | cons tok toks ih =>
    intro sp terms posAcc hacc pa hpa p hp
    rw [extractLoop] at hpa
    rcases hfind : strFind textOrig tok.toList sp with _ | i
    · simp only [hfind] at hpa
      by_cases hcond : tok ∉ stopwords ∧ minLen ≤ tok.length
      · rw [if_pos hcond] at hpa
        refine ih _ _ _ ?_ pa hpa p hp
        intro pa' hpa' q hq
        rcases appendPos_mem hpa' q hq with ⟨pa'', hpa'', hq'⟩ | rfl
        · exact hacc pa'' hpa'' q hq'
        · norm_num
      · rw [if_neg hcond] at hpa
        exact ih _ _ _ hacc pa hpa p hp
    · simp only [hfind] at hpa
      by_cases hcond : tok ∉ stopwords ∧ minLen ≤ tok.length
      · rw [if_pos hcond] at hpa
        refine ih _ _ _ ?_ pa hpa p hp
        intro pa' hpa' q hq
        rcases appendPos_mem hpa' q hq with ⟨pa'', hpa'', hq'⟩ | rfl
        · exact hacc pa'' hpa'' q hq'
        · have : (0 : Int) ≤ (i : Int) := Int.ofNat_nonneg i
          omega
      · rw [if_neg hcond] at hpa
        exact ih _ _ _ hacc pa hpa p hp

/-- C7 (amended): every per-term position list produced by the normalizer is
strictly increasing and duplicate-free, and every entry is `≥ -1`, where
`-1` is the sentinel recorded when a cleaned token cannot be located in the
original text. -/
theorem extract_positions_sorted_unique (stem : String → String)
    (stopwords : List String) (minLen : Nat) (textOrig : List Char)
    (tokensCleaned : List String) :
    ∀ pa ∈ (extractTermsWithPositions stem stopwords minLen textOrig tokensCleaned).2,
      pa.2.Chain' (· < ·) ∧ pa.2.Nodup ∧ ∀ p ∈ pa.2, -1 ≤ p := by
  intro pa hpa
  rw [extractTermsWithPositions] at hpa
  simp only [List.mem_map] at hpa
  obtain ⟨⟨k, ps⟩, hmem, rfl⟩ := hpa
  refine ⟨(sortedUnique_sorted_lt ps).chain', sortedUnique_nodup ps, ?_⟩
  intro p hp
  have hp' : p ∈ ps := mem_sortedUnique hp
  exact extractLoop_pos_ge stem stopwords minLen textOrig tokensCleaned 0 [] []
    (by intro pa' hpa'; cases hpa') (k, ps) hmem p hp'

/-- Witness for the amended C7: the position list recorded for token
`"cat"` of original text `"ca$t"`. -/
theorem extract_positions_sorted_unique_witness :
    ([(-1 : Int)]).Chain' (· < ·) ∧ ([(-1 : Int)]).Nodup ∧ (-1 : Int) ≤ -1 := by
  obtain ⟨h1, h2, h3⟩ := extract_positions_sorted_unique id [] 1 "ca$t".toList ["cat"]
    ("cat", [-1]) (by decide)
  exact ⟨h1, h2, h3 (-1) (by decide)⟩

/-- C7 counterexample: a cleaned token that does not occur verbatim in the
original text (here `"cat"` against original `"ca$t"`, whose `$` was removed
by cleaning) is recorded with position `-1`, so position lists are not
non-negative. -/
theorem extract_positions_negative :
    (extractTermsWithPositions id [] 1 "ca$t".toList ["cat"]).2 =
      [("cat", [-1])] ∧ ¬ (0 : Int) ≤ -1 := by
  constructor
  · decide
  · decide

/-- One `{doc, tf, positions}` record of the builder's transient
`tf_matrix` (indexer.py:69-74). -/
structure TfEntry where
  doc : String
  tf : ℚ
  positions : List Int
deriving DecidableEq

/-- A term's `{tf, positions}` record as produced by `compute_tf`
(cleaner.py:148-174); the normalization pipeline behind it is the external
collaborator. -/
structure TfData where
  tf : ℚ
  positions : List Int
deriving DecidableEq

/-- `self.tf_matrix[term].append({...})` on the insertion-ordered
`defaultdict(list)` (indexer.py:24,69-74). -/
def appendEntry : List (String × List TfEntry) → String → TfEntry →
    List (String × List TfEntry)
  | [], k, e => [(k, [e])]
  | (k', es) :: t, k, e =>
    if k' = k then (k', es ++ [e]) :: t else (k', es) :: appendEntry t k e

/-- `DocumentIndexer.process_single_document` (indexer.py:52-74): read the
file (`open(...).read()` raises on an unreadable file, modelled by an
`Except`-valued `readFile`), compute its term frequencies and append them to
the shared tf matrix. -/
def processSingleDocument (computeTf : String → List (String × TfData))
    (readFile : String → Except Unit String) (filename : String)
    (tfMatrix : List (String × List TfEntry)) :
    Except Unit (List (String × List TfEntry)) :=
  match readFile filename with
  | .error e => .error e
  | .ok content =>
    .ok ((computeTf content).foldl
      (fun m td => appendEntry m td.1 ⟨filename, td.2.tf, td.2.positions⟩) tfMatrix)

/-- The document loop of `DocumentIndexer.build_index` (indexer.py:38-43):
any exception raised while processing a document propagates and aborts the
loop. -/
def buildLoop (computeTf : String → List (String × TfData))
    (readFile : String → Except Unit String) :
    List String → List (String × List TfEntry) →
      Except Unit (List (String × List TfEntry))
  | [], m => .ok m
  | f :: fs, m =>
    match processSingleDocument computeTf readFile f m with
    | .error e => .error e
    | .ok m' => buildLoop computeTf readFile fs m'

/-- The in-memory index produced by a successful build. -/
structure BuiltIndex where
  tfidfMatrix : List (String × (ℚ × List WeightEntry))
  docNorms : List (String × ℚ)
  totalDocs : ℕ
deriving DecidableEq

/-- `DocumentIndexer.compute_tfidf` (indexer.py:76-110): per-term idf
(`math.log2` passed in as `mlog2`), tfidf weights, accumulated squared
weights per document and final norms (`math.sqrt` as `msqrt`). -/
def computeTfidf (mlog2 msqrt : ℚ → ℚ) (totalDocs : ℕ)
    (tfMatrix : List (String × List TfEntry)) :
    List (String × (ℚ × List WeightEntry)) × List (String × ℚ) :=
  let acc := tfMatrix.foldl
    (fun (acc : List (String × (ℚ × List WeightEntry)) × List (String × ℚ)) p =>
      let idf := mlog2 ((totalDocs : ℚ) / (p.2.length : ℚ))
      let weights := p.2.map (fun e => WeightEntry.mk e.doc (e.tf * idf) e.positions)
      let sums := p.2.foldl (fun s e => updateAdd s e.doc ((e.tf * idf) ^ 2)) acc.2
      (acc.1 ++ [(p.1, (idf, weights))], sums)) ([], [])
  (acc.1, acc.2.map (fun q => (q.1, msqrt q.2)))

/-- `DocumentIndexer.build_index` (indexer.py:29-50): fatal error on a
missing corpus root, then the document loop, then `total_docs` and the
TF-IDF computation. `files` is the `isfile`-filtered directory listing. -/
def buildIndex (mlog2 msqrt : ℚ → ℚ) (computeTf : String → List (String × TfData))
    (readFile : String → Except Unit String) (corpusExists : Bool)
    (files : List String) : Except Unit BuiltIndex :=
  if corpusExists = false then .error ()
  else
    match buildLoop computeTf readFile files [] with
    | .error e => .error e
    | .ok tfm =>
      let r := computeTfidf mlog2 msqrt files.length tfm
      .ok ⟨r.1, r.2, files.length⟩

lemma buildLoop_error (computeTf : String → List (String × TfData))
    (readFile : String → Except Unit String) :
    ∀ (files : List String), (∃ f ∈ files, readFile f = .error ()) →
    ∀ m, buildLoop computeTf readFile files m = .error () := by
  intro files
  induction files with
  | nil =>
    rintro ⟨f, hf, -⟩
    cases hf
  | cons f fs ih =>
    rintro ⟨g, hg, hgerr⟩ m
    rw [buildLoop, processSingleDocument]
    rcases hr : readFile f with e | content
    · obtain ⟨⟩ := e
      rfl
    · rcases List.mem_cons.mp hg with rfl | hg'
      · rw [hr] at hgerr
        cases hgerr
      · exact ih ⟨g, hg', hgerr⟩ _

/-- C3 (amended): an unreadable document is not skipped — the read error
propagates out of `build_index` and the whole build aborts with no index
produced. -/
theorem buildIndex_aborts_on_unreadable (mlog2 msqrt : ℚ → ℚ)
    (computeTf : String → List (String × TfData))
    (readFile : String → Except Unit String) (files : List String)
    (h : ∃ f ∈ files, readFile f = .error ()) :
    buildIndex mlog2 msqrt computeTf readFile true files = .error () := by
  rw [buildIndex]
  simp only [Bool.true_eq_false, if_false]
  rw [buildLoop_error computeTf readFile files h []]

/-- Witness for the amended C3: a two-file corpus whose second file is
unreadable. -/
theorem buildIndex_aborts_on_unreadable_witness :
    buildIndex (fun _ => 0) (fun _ => 0) (fun _ => [])
      (fun f => if f = "good.txt" then .ok "x" else .error ())
      true ["good.txt", "bad.txt"] = .error () :=
  buildIndex_aborts_on_unreadable (fun _ => 0) (fun _ => 0) (fun _ => [])
    (fun f => if f = "good.txt" then .ok "x" else .error ())
    ["good.txt", "bad.txt"]
    ⟨"bad.txt", by simp, by simp⟩

/-- C3 counterexample: with one readable and one unreadable document the
build returns an error — it does not complete over the remaining documents
(which would be `.ok` with `totalDocs = 1`). -/
theorem buildIndex_not_skipping :
    buildIndex (fun _ => 0) (fun _ => 0) (fun _ => [])
      (fun f => if f = "solo.txt" then .ok "x" else .error ())
      true ["solo.txt", "broken.txt"] = .error () ∧
    ∀ idx : BuiltIndex, buildIndex (fun _ => 0) (fun _ => 0) (fun _ => [])
      (fun f => if f = "solo.txt" then .ok "x" else .error ())
      true ["solo.txt", "broken.txt"] ≠ .ok idx := by
  constructor
  · rfl
  · intro idx h
    cases h

/-- The three optional top-level sections of the persisted index JSON as
`json.load` hands them to `load_index`. -/
structure RawIndex where
  meta : Option (List (String × Int))
  terms : Option TermsMap
  docNorms : Option (List (String × ℚ))

/-- The only error `load_index` can raise besides JSON decoding:
`FileNotFoundError` (search_engine.py:52-53). -/
inductive LoadError where
  | fileNotFound
deriving DecidableEq

/-- The engine state populated by `load_index` (search_engine.py:58-60). -/
structure Engine where
  meta : List (String × Int)
  terms : TermsMap
  docNorms : List (String × ℚ)
deriving DecidableEq

/-- `SearchEngine.load_index` (search_engine.py:45-65): a missing file
raises `FileNotFoundError`; otherwise each top-level section is read with
`index.get(..., {})`, defaulting silently when absent. -/
def loadIndex : Option RawIndex → Except LoadError Engine
  | none => .error .fileNotFound
  | some r => .ok ⟨r.meta.getD [], r.terms.getD [], r.docNorms.getD []⟩

/-- C5 (amended): a missing index file is a fatal `FileNotFoundError`, but a
present index is never validated — any combination of missing top-level
sections loads successfully with empty defaults. -/
theorem loadIndex_no_validation :
    loadIndex none = .error .fileNotFound ∧
    ∀ r : RawIndex, ∃ eng : Engine, loadIndex (some r) = .ok eng :=
  ⟨rfl, fun r => ⟨⟨r.meta.getD [], r.terms.getD [], r.docNorms.getD []⟩, rfl⟩⟩

/-- C5 counterexample: an index missing all three required sections loads
without any error, contradicting the claimed validation/fatal
`IndexCorrupt` error. -/
theorem loadIndex_accepts_missing_sections :
    loadIndex (some ⟨none, none, none⟩) = .ok ⟨[], [], []⟩ := rfl

/-- `PUNCTUATION_MARKS` (text_extractor.py:10). -/
def punctuationMarks : List Char :=
  ['.', ',', ';', ':', '(', ')', '[', ']', '-', '"', '¿', '?', '¡', '!']

/-- Membership in `PUNCTUATION_MARKS`. -/
def isPunct (c : Char) : Bool :=
  punctuationMarks.contains c

/-- `text[i]`; out-of-range access (a Python `IndexError`) is modelled as a
space, which no claim exercises. -/
def charAt (l : List Char) (i : Nat) : Char :=
  l.getD i ' '

/-- The backward sentence-boundary scan of `get_snippet_for_term`
(text_extractor.py:72-81), including the keep-going case for a hyphen
between alphanumeric characters. -/
def bscan (text : List Char) : Nat → Nat
  | 0 => 0
  | Nat.succ n =>
    if isPunct (charAt text n) then
      if (charAt text n == '-') && decide (0 < n) && decide (n + 1 < text.length) &&
          (charAt text (n - 1)).isAlphanum && (charAt text (n + 1)).isAlphanum
      then bscan text n
      else n + 1
    else bscan text n

/-- The whitespace skip after the backward scan (text_extractor.py:83-84). -/
def wskip (text : List Char) (sp : Nat) : Nat :=
  if h : sp < text.length ∧ charAt text sp = ' ' then wskip text (sp + 1) else sp
termination_by text.length - sp
decreasing_by
  omega

/-- The forward sentence-boundary scan (text_extractor.py:87-94). -/
def fscan (text : List Char) (ep : Nat) : Nat :=
  if h : ep < text.length then
    if isPunct (charAt text ep) then
      if (charAt text ep == '-') && decide (ep + 1 < text.length) &&
          (charAt text (ep + 1)).isAlphanum
      then fscan text (ep + 1)
      else ep
    else fscan text (ep + 1)
  else ep
termination_by text.length - ep
decreasing_by
  · omega
  · omega

/-- `text[start:end]` (Python slice) on character lists. -/
def pySlice (l : List Char) (a b : Nat) : List Char :=
  (l.take b).drop a

/-- Word counting helper: `len(s.split())`, the number of maximal
non-whitespace runs. -/
def countWordsAux : List Char → Bool → Nat
  | [], _ => 0
  | c :: rest, inWord =>
    if c.isWhitespace then countWordsAux rest false
    else (if inWord then 0 else 1) + countWordsAux rest true

/-- `len(text[start:end].split())` (text_extractor.py:96). -/
def countWords (l : List Char) : Nat :=
  countWordsAux l false

/-- The forward half of `reallocate_position` (text_extractor.py:160-164),
returning the final position and remaining step budget. -/
def reallocFwd (text : List Char) (position numSteps : Nat) : Nat × Nat :=
  if h : position < text.length ∧ 0 < numSteps then
    reallocFwd text (position + 1)
      (if charAt text position ∈ [' ', '\n', '\t'] then numSteps - 1 else numSteps)
  else (position, numSteps)
termination_by text.length - position
decreasing_by
  omega

/-- The backward half of `reallocate_position` (text_extractor.py:167-171). -/
def reallocBwd (text : List Char) : Nat → Nat → Nat
  | 0, _ => 0
  | Nat.succ p, numSteps =>
    if 0 < numSteps then
      reallocBwd text p
        (if charAt text p ∈ [' ', '\n', '\t'] then numSteps - 1 else numSteps)
    else Nat.succ p

/-- `reallocate_position` (text_extractor.py:145-173). -/
def reallocatePosition (text : List Char) (position numSteps : Nat)
    (fwd bwd : Bool) : Nat :=
  let pr := if fwd then reallocFwd text position numSteps else (position, numSteps)
  if bwd then reallocBwd text pr.1 pr.2 else pr.1

/-- `extract_text_by_position` (text_extractor.py:108-142): a verbatim slice
of the raw (original-casing) document content, with clamped bounds. -/
def extractTextByPosition (content : List Char) (startPos endPos : Nat) : List Char :=
  let e := min endPos content.length
  if e ≤ startPos then [] else pySlice content startPos e

/-- `get_snippet_for_term` (text_extractor.py:54-106): boundaries are found
on the lowercased text (`get_full_document_text` lowercases), but the
returned fragment is re-read from the raw content by
`extract_text_by_position`. -/
def getSnippetForTerm (content : List Char) (position : Nat) : List Char :=
  let text := content.map Char.toLower
  let sp0 := bscan text position
  let sp1 := wskip text sp0
  let ep := fscan text position
  let wc := countWords (pySlice text sp1 ep)
  let bounds : Nat × Nat :=
    if ¬ (wc ≤ 15 ∧ 10 ≤ wc) then
      if ((ep : Int) - (position : Int)) < ((position : Int) - (sp1 : Int)) then
        (reallocatePosition text ep 15 false true, ep)
      else (sp1, reallocatePosition text sp1 15 true false)
    else (sp1, ep)
  extractTextByPosition content bounds.1 bounds.2

/-- `find_snippet_for_term` (text_extractor.py:175-193): search the term in
the lowercased text; `None` when absent. -/
def findSnippetForTerm (content : List Char) (term : List Char) : Option (List Char) :=
  match strFind (content.map Char.toLower) term 0 with
  | none => none
  | some position => some (getSnippetForTerm content position)

/-- First case-insensitive occurrence of `pat` in `text`
(`re` with `re.escape` + `re.IGNORECASE`). -/
def findCI (text pat : List Char) : Option Nat :=
  strFind (text.map Char.toLower) (pat.map Char.toLower) 0

lemma findFromAux_le {pat : List Char} : ∀ {l : List Char} {i0 j : Nat},
    findFromAux pat l i0 = some j → i0 ≤ j ∧ j - i0 + pat.length ≤ l.length := by
  intro l
  induction l with
  | nil =>
    intro i0 j h
    rw [findFromAux] at h
    by_cases hp : pat = ([] : List Char)
    · rw [if_pos hp] at h
      injection h with h'
      subst h'
      subst hp
      simp
    · rw [if_neg hp] at h
      cases h
  | cons c rest ih =>
    intro i0 j h
    rw [findFromAux] at h
    by_cases hp : pat.isPrefixOf (c :: rest) = true
    · rw [if_pos hp] at h
      injection h with h'
      subst h'
      have hle : pat.length ≤ (c :: rest).length :=
        (List.isPrefixOf_iff_prefix.mp hp).length_le
      omega
    · rw [if_neg hp] at h
      obtain ⟨h1, h2⟩ := ih h
      rw [List.length_cons]
      omega

lemma findCI_le {text pat : List Char} {i : Nat} (h : findCI text pat = some i) :
    i + pat.length ≤ text.length := by
  rw [findCI, strFind] at h
  obtain ⟨-, h2⟩ := findFromAux_le h
  simp only [List.drop_zero, List.length_map] at h2 ⊢
  omega

/-- The decomposition of a text into unhighlighted and matched segments that
`re.sub(pattern, '**...**', text, re.IGNORECASE)` induces
(text_extractor.py:29,51): the flag marks a matched span. -/
def highlightSegs (term : List Char) (text : List Char) : List (List Char × Bool) :=
  if hterm : term.length = 0 then [(text, false)]
  else
    match hfind : findCI text term with
    | none => [(text, false)]
    | some i =>
      (text.take i, false) :: ((text.drop i).take term.length, true) ::
        highlightSegs term (text.drop (i + term.length))
termination_by text.length
decreasing_by
  have := findCI_le hfind
  rw [List.length_drop]
  omega

/-- Rebuild the replaced string: matched segments wrapped in `**` markers. -/
def renderSegs : List (List Char × Bool) → List Char
  | [] => []
  | (s, false) :: rest => s ++ renderSegs rest
  | (s, true) :: rest => '*' :: '*' :: (s ++ ('*' :: '*' :: renderSegs rest))

/-- Concatenation of the segments without any markers. -/
def joinSegs : List (List Char × Bool) → List Char
  | [] => []
  | (s, _) :: rest => s ++ joinSegs rest

/-- `highlight_term` (text_extractor.py:12-30). -/
def highlightTerm (text term : List Char) : List Char :=
  if text = [] ∨ term = [] then text
  else renderSegs (highlightSegs term text)

/-- `highlight_phrase` (text_extractor.py:33-52); identical mechanism with
the whole phrase as the literal pattern. -/
def highlightPhrase (text phrase : List Char) : List Char :=
  if text = [] ∨ phrase = [] then text
  else renderSegs (highlightSegs phrase text)

/-- `extract_snippet` (text_extractor.py:216-240). -/
def extractSnippet (content : List Char) (position : Int)
    (term searchedTerm : List Char) (operator : String) : Option (List Char) :=
  let snippet : Option (List Char) :=
    if position ≠ -1 then some (getSnippetForTerm content position.toNat)
    else findSnippetForTerm content term
  match snippet with
  | none => none
  | some s =>
    some (if operator = "PHRASE" then highlightPhrase s searchedTerm
          else highlightTerm s searchedTerm)

lemma joinSegs_highlightSegs (term : List Char) : ∀ text : List Char,
    joinSegs (highlightSegs term text) = text := by
  intro text
  induction text using highlightSegs.induct term with
  | case1 text hterm =>
    rw [highlightSegs, dif_pos hterm, joinSegs, joinSegs]
    simp
  | case2 text hterm hfind =>
    rw [highlightSegs, dif_neg hterm, hfind, joinSegs, joinSegs]
    simp
  | case3 text hterm i hfind ih =>
    rw [highlightSegs, dif_neg hterm, hfind, joinSegs, joinSegs, ih]
    rw [← List.drop_drop, List.take_append_drop, List.take_append_drop]

lemma getSnippetForTerm_is_slice (content : List Char) (p : Nat) :
    ∃ a b, getSnippetForTerm content p = extractTextByPosition content a b := by
  rw [getSnippetForTerm]
  exact ⟨_, _, rfl⟩

lemma highlightTerm_decomp (s st : List Char) :
    ∃ segs, highlightTerm s st = renderSegs segs ∧ joinSegs segs = s := by
  rw [highlightTerm]
  by_cases h : s = [] ∨ st = []
  · rw [if_pos h]
    refine ⟨[(s, false)], ?_, ?_⟩
    · rw [renderSegs, renderSegs, List.append_nil]
    · rw [joinSegs, joinSegs, List.append_nil]
  · rw [if_neg h]
    exact ⟨highlightSegs st s, rfl, joinSegs_highlightSegs st s⟩

lemma highlightPhrase_decomp (s st : List Char) :
    ∃ segs, highlightPhrase s st = renderSegs segs ∧ joinSegs segs = s := by
  rw [highlightPhrase]
  by_cases h : s = [] ∨ st = []
  · rw [if_pos h]
    refine ⟨[(s, false)], ?_, ?_⟩
    · rw [renderSegs, renderSegs, List.append_nil]
    · rw [joinSegs, joinSegs, List.append_nil]
  · rw [if_neg h]
    exact ⟨highlightSegs st s, rfl, joinSegs_highlightSegs st s⟩

/-- C4: every snippet `extract_snippet` returns decomposes into segments
whose concatenation — i.e. the snippet with the inserted `**` markers
removed — is a verbatim, casing-preserving slice of the raw document
content; highlighting only inserts markers and alters nothing, inside or
outside the matched spans. -/
theorem extractSnippet_preserves_original (content : List Char) (position : Int)
    (term searchedTerm : List Char) (op : String) :
    extractSnippet content position term searchedTerm op = none ∨
    ∃ segs a b, extractSnippet content position term searchedTerm op =
        some (renderSegs segs) ∧
      joinSegs segs = extractTextByPosition content a b := by
  rw [extractSnippet]
  by_cases hpos : position ≠ -1
  · simp only [if_pos hpos]
    right
    obtain ⟨a, b, hs⟩ := getSnippetForTerm_is_slice content position.toNat
    by_cases hop : op = "PHRASE"
    · obtain ⟨segs, hr, hj⟩ :=
        highlightPhrase_decomp (getSnippetForTerm content position.toNat) searchedTerm
      exact ⟨segs, a, b, by rw [if_pos hop, hr], by rw [hj, hs]⟩
    · obtain ⟨segs, hr, hj⟩ :=
        highlightTerm_decomp (getSnippetForTerm content position.toNat) searchedTerm
      exact ⟨segs, a, b, by rw [if_neg hop, hr], by rw [hj, hs]⟩
  · simp only [if_neg hpos]
    rcases hfind : findSnippetForTerm content term with _ | snip
    · simp only [hfind]
      exact Or.inl trivial
    · simp only [hfind]
      right
      have hsnip : ∃ p, snip = getSnippetForTerm content p := by
        rw [findSnippetForTerm] at hfind
        rcases hsf : strFind (content.map Char.toLower) term 0 with _ | p
        · rw [hsf] at hfind
          cases hfind
        · rw [hsf] at hfind
          injection hfind with h'
          exact ⟨p, h'.symm⟩
      obtain ⟨p, rfl⟩ := hsnip
      obtain ⟨a, b, hs⟩ := getSnippetForTerm_is_slice content p
      by_cases hop : op = "PHRASE"
      · obtain ⟨segs, hr, hj⟩ :=
          highlightPhrase_decomp (getSnippetForTerm content p) searchedTerm
        exact ⟨segs, a, b, by rw [if_pos hop, hr], by rw [hj, hs]⟩
      · obtain ⟨segs, hr, hj⟩ :=
          highlightTerm_decomp (getSnippetForTerm content p) searchedTerm
        exact ⟨segs, a, b, by rw [if_neg hop, hr], by rw [hj, hs]⟩

/-- Runtime errors the search path can raise. -/
inductive PyError where
  | attributeError
  | fileNotFound
deriving DecidableEq

/-- A search result `{doc, score, snippets}` (search_engine.py:189-190). -/
structure SearchResult where
  doc : String
  score : ℚ
  snippets : List (List Char)
deriving DecidableEq

/-- `query.split()`: maximal non-whitespace runs of the raw query. -/
def pySplitAux : List Char → List Char → List (List Char)
  | [], acc => if acc = [] then [] else [acc.reverse]
  | c :: rest, acc =>
    if c.isWhitespace then
      if acc = [] then pySplitAux rest [] else acc.reverse :: pySplitAux rest []
    else pySplitAux rest (c :: acc)

/-- Python `str.split()` with no separator. -/
def pySplit (s : String) : List (List Char) :=
  pySplitAux s.toList []

/-- The inner scan of `SearchEngine.is_document_matching`
(search_engine.py:89-94). -/
def findDocPositions : List WeightEntry → String → Option (List Int)
  | [], _ => none
  | w :: ws, doc => if w.doc = doc then some w.positions else findDocPositions ws doc

/-- `SearchEngine.is_document_matching` (search_engine.py:80-94). -/
def isDocumentMatching (terms : TermsMap) (docId term : String) : Bool × List Int :=
  match dictGet terms term with
  | some e =>
    match findDocPositions e.weights docId with
    | some ps => (true, ps)
    | none => (false, [])
  | none => (false, [])

/-- `extract_snippet` behind the corpus reads of text_extractor.py: a
missing document raises `FileNotFoundError`
(text_extractor.py:122-123,207-208); `readDoc` is the external corpus
collaborator. -/
def extractSnippetIO (readDoc : String → Option (List Char)) (docId : String)
    (position : Int) (term searched : List Char) (op : String) :
    Except PyError (Option (List Char)) :=
  match readDoc docId with
  | none => .error .fileNotFound
  | some content => .ok (extractSnippet content position term searched op)

/-- `SearchEngine.get_positions` (search_engine.py:96-127). `positions[0]`
on the nonempty position lists the index stores is modelled with a `-1`
default; `original_query[i]` with a `[]` default likewise. -/
def getPositionsSE (readDoc : String → Option (List Char)) (terms : TermsMap)
    (docId : String) (queryTerms : List String) (originalQuery : List (List Char))
    (operator : String) : Except PyError (List (List Char)) :=
  if operator = "PHRASE" ∧ 1 < queryTerms.length then
    let fullPhrase := " ".intercalate queryTerms
    let term := queryTerms.headD ""
    let m := isDocumentMatching terms docId term
    if m.1 then do
      let snip ← extractSnippetIO readDoc docId (m.2.headD (-1)) fullPhrase.toList
        (" ".intercalate (originalQuery.map (fun l => String.mk l))).toList operator
      match snip with
      | some sn => pure [sn]
      | none => pure []
    else
      pure []
  else
    (List.range queryTerms.length).foldlM (fun acc i => do
      let term := queryTerms.getD i ""
      let m := isDocumentMatching terms docId term
      if m.1 then do
        let snip ← extractSnippetIO readDoc docId (m.2.headD (-1)) term.toList
          (originalQuery.getD i []) operator
        match snip with
        | some sn => pure (acc ++ [sn])
        | none => pure acc
      else
        pure acc) []

/-- `SearchEngine.search` (search_engine.py:129-192) on a loaded engine.
The call `self.ranker.compute_query_norm(...)` at line 176 does not
resolve — `DocumentRanker` defines no such method (the function lives in
query_processor.py but is never attached) — so Python raises
`AttributeError` whenever the candidate set is nonempty; the step is
modelled as `Except.error .attributeError`, and the remaining pipeline
(ranking, truncation, snippets) is the unreachable continuation. -/
def search (indexTerms : TermsMap) (docNorms : List (String × ℚ)) (maxResults : ℕ)
    (normalize : String → List String) (readDoc : String → Option (List Char))
    (query : String) (operator : String) : Except PyError (List SearchResult) :=
  let allQueryTerms := normalize query
  if allQueryTerms = [] then .ok []
  else
    let cands0 := filterDocuments indexTerms allQueryTerms operator
    let candidateDocs :=
      if operator = "PHRASE" ∧ 1 < allQueryTerms.length
      then filterDocsByPhrase indexTerms allQueryTerms cands0
      else cands0
    if candidateDocs = ∅ then .ok []
    else do
      let queryNorm ← (.error .attributeError : Except PyError ℚ)
      let rankedDocs :=
        rankDocuments indexTerms docNorms allQueryTerms queryNorm (some candidateDocs)
      if rankedDocs = [] then pure []
      else do
        let topDocs := rankedDocs.take maxResults
        topDocs.mapM (fun r => do
          let snips ← getPositionsSE readDoc indexTerms r.doc allQueryTerms
            (pySplit query) operator
          pure (⟨r.doc, r.score, snips⟩ : SearchResult))

/-- C1: evaluating `search` at a loaded one-term index and a query matching
one document raises `AttributeError` instead of returning a result list —
`DocumentRanker` has no `compute_query_norm` method. -/
theorem search_raises_attributeError :
    search [("cat", ⟨1, [⟨"d1", 1, [0]⟩]⟩)] [("d1", 1)] 10
      (fun q => if q = "cat" then ["cat"] else []) (fun _ => none)
      "cat" "OR" = .error .attributeError := by
  rfl

end RecInf
